import Mathlib

/-!
Verification development for the mortality-data processing pipeline
(`process.py` of MortalityENW).

Shallow embedding conventions:
* pandas data frames become lists of structures;
* Python strings become `List Char` (compared by code point, as Python does);
* death counts are natural numbers, fractions are exact rationals `ℚ`;
* Python `assert` failures and `KeyError`s become `Except` errors.
-/

namespace MortalityENW

/-! ### Character / string primitives -/

/-- Numeric value of a digit character. -/
def digitVal (c : Char) : Nat := c.toNat - 48

/-- Python `int(s)` on a digit string, most-significant digit first. -/
def digitsToNat : List Char → Nat
  | [] => 0
  | c :: t => digitVal c * 10 ^ t.length + digitsToNat t

/-- Python lexicographic `<` on strings (code-point order, shorter prefix first). -/
def strLt : List Char → List Char → Bool
  | [], [] => false
  | [], _ :: _ => true
  | _ :: _, [] => false
  | a :: as, b :: bs =>
      if a.toNat < b.toNat then true
      else if b.toNat < a.toNat then false
      else strLt as bs

/-- Python `s <= t` on strings (total order, so `s <= t ↔ ¬ t < s`). -/
def strLe (a b : List Char) : Bool := !(strLt b a)

/-! ### `left_pad_code` (process.py lines 124-130)

```python
def left_pad_code(code):
    code = code.lstrip("0")
    i_str = re.search("^[0-9]+", code).group()
    i = int(i_str)
    assert 0 < i <= 999
    return f"{int(i_str):03d}{code[len(i_str):]}"
```

`re.search` returning `None` (no leading digits) raises `AttributeError`, and the
`assert` raises `AssertionError`; both are modelled by `none`. -/

/-- The three digit characters produced by `f"{i:03d}"` for `i ≤ 999`. -/
def pad3 (i : Nat) : List Char :=
  [Char.ofNat (48 + i / 100), Char.ofNat (48 + i / 10 % 10), Char.ofNat (48 + i % 10)]

/-- `left_pad_code` from process.py: strip leading zeros, read the leading digit
run, require its value in `[1, 999]`, zero-pad it to three digits and append the
rest of the (zero-stripped) code unchanged. -/
def left_pad_code (code : List Char) : Option (List Char) :=
  let s := code.dropWhile (fun c => c == '0')
  let ds := s.takeWhile Char.isDigit
  if ds = [] then none
  else
    let i := digitsToNat ds
    if 0 < i ∧ i ≤ 999 then some (pad3 i ++ s.drop ds.length) else none

/-- The number denoted by the leading digit run of a code
(the "leading chapter number" for pre-ICD-6 codes). -/
def chapterNum (code : List Char) : Nat := digitsToNat (code.takeWhile Char.isDigit)

/-! ### Arithmetic facts about digit strings -/

theorem digit_char_facts :
    ∀ d, d < 10 → (Char.ofNat (48 + d)).isDigit = true ∧ (Char.ofNat (48 + d)).toNat = 48 + d := by
  decide

theorem digitVal_lt_ten {c : Char} (h : c.isDigit = true) : digitVal c < 10 := by
  have h48 : 48 ≤ c.toNat ∧ c.toNat ≤ 57 := by
    unfold Char.isDigit at h
    simp only [Bool.and_eq_true, decide_eq_true_eq] at h
    exact ⟨h.1, h.2⟩
  unfold digitVal
  omega

theorem digitsToNat_lt_pow {l : List Char} (h : ∀ c ∈ l, c.isDigit = true) :
    digitsToNat l < 10 ^ l.length := by
  induction l with
  | nil => simp [digitsToNat]
  | cons c t ih =>
      have hc : digitVal c < 10 := digitVal_lt_ten (h c (List.mem_cons_self ..))
      have ht : digitsToNat t < 10 ^ t.length := ih fun d hd => h d (List.mem_cons_of_mem _ hd)
      have : digitVal c * 10 ^ t.length + digitsToNat t < 10 ^ (t.length + 1) := by
        have h1 : digitVal c * 10 ^ t.length ≤ 9 * 10 ^ t.length :=
          Nat.mul_le_mul_right _ (by omega)
        have h2 : (10 : Nat) ^ (t.length + 1) = 10 * 10 ^ t.length := by ring
        omega
      simpa [digitsToNat, List.length_cons] using this

theorem isDigit_iff_toNat {c : Char} :
    c.isDigit = true ↔ 48 ≤ c.toNat ∧ c.toNat ≤ 57 := by
  unfold Char.isDigit
  simp only [Bool.and_eq_true, decide_eq_true_eq]
  constructor
  · exact fun h => ⟨h.1, h.2⟩
  · exact fun h => ⟨h.1, h.2⟩

/-- Digit strings of equal length compare lexicographically as their values do. -/
theorem strLt_of_digitsToNat_lt :
    ∀ (xs ys : List Char), xs.length = ys.length →
      (∀ c ∈ xs, c.isDigit = true) → (∀ c ∈ ys, c.isDigit = true) →
      digitsToNat xs < digitsToNat ys → strLt xs ys = true := by
  intro xs
  induction xs with
  | nil =>
      intro ys hlen _ _ hval
      cases ys with
      | nil => simp [digitsToNat] at hval
      | cons b bs => simp at hlen
  | cons a as ih =>
      intro ys hlen hxd hyd hval
      cases ys with
      | nil => simp at hlen
      | cons b bs =>
          have hlen' : as.length = bs.length := by simpa using hlen
          have had : a.isDigit = true := hxd a (List.mem_cons_self ..)
          have hbd : b.isDigit = true := hyd b (List.mem_cons_self ..)
          by_cases hab : a.toNat < b.toNat
          · simp [strLt, hab]
          · by_cases hba : b.toNat < a.toNat
            · exfalso
              -- head of xs is strictly larger, so the value of xs is ≥ value of ys
              have hb9 : digitVal b + 1 ≤ digitVal a := by
                have h1 := (isDigit_iff_toNat).mp had
                have h2 := (isDigit_iff_toNat).mp hbd
                unfold digitVal
                omega
              have hbsv : digitsToNat bs < 10 ^ bs.length :=
                digitsToNat_lt_pow fun c hc => hyd c (List.mem_cons_of_mem _ hc)
              have hx : digitsToNat (a :: as) = digitVal a * 10 ^ as.length + digitsToNat as := rfl
              have hy : digitsToNat (b :: bs) = digitVal b * 10 ^ bs.length + digitsToNat bs := rfl
              rw [hx, hy, hlen'] at hval
              have : (digitVal b + 1) * 10 ^ bs.length ≤ digitVal a * 10 ^ bs.length :=
                Nat.mul_le_mul_right _ hb9
              have hexp : (digitVal b + 1) * 10 ^ bs.length
                  = digitVal b * 10 ^ bs.length + 10 ^ bs.length := by ring
              omega
            · -- equal heads: values of heads agree, compare tails
              have hEq : a.toNat = b.toNat := by omega
              have hdv : digitVal a = digitVal b := by unfold digitVal; omega
              have hx : digitsToNat (a :: as) = digitVal a * 10 ^ as.length + digitsToNat as := rfl
              have hy : digitsToNat (b :: bs) = digitVal b * 10 ^ bs.length + digitsToNat bs := rfl
              rw [hx, hy, hlen', hdv] at hval
              have htail : digitsToNat as < digitsToNat bs := by omega
              have := ih bs hlen' (fun c hc => hxd c (List.mem_cons_of_mem _ hc))
                (fun c hc => hyd c (List.mem_cons_of_mem _ hc)) htail
              simp [strLt, hab, hba, this]

/-- A strict comparison decided within a common-length prefix survives appending
arbitrary suffixes. -/
theorem strLt_append_of_strLt :
    ∀ (xs ys u v : List Char), xs.length = ys.length → strLt xs ys = true →
      strLt (xs ++ u) (ys ++ v) = true := by
  intro xs
  induction xs with
  | nil =>
      intro ys u v hlen h
      cases ys with
      | nil => simp [strLt] at h
      | cons b bs => simp at hlen
  | cons a as ih =>
      intro ys u v hlen h
      cases ys with
      | nil => simp at hlen
      | cons b bs =>
          have hlen' : as.length = bs.length := by simpa using hlen
          by_cases hab : a.toNat < b.toNat
          · simp [strLt, hab]
          · by_cases hba : b.toNat < a.toNat
            · simp [strLt, hab, hba] at h
            · have h' : strLt as bs = true := by simpa [strLt, hab, hba] using h
              simpa [strLt, hab, hba] using ih bs u v hlen' h'

theorem pad3_spec {i : Nat} (h1 : 0 < i) (h2 : i ≤ 999) :
    (∀ c ∈ pad3 i, c.isDigit = true) ∧ digitsToNat (pad3 i) = i ∧ (pad3 i).length = 3 := by
  have hd1 : i / 100 < 10 := by omega
  have hd2 : i / 10 % 10 < 10 := by omega
  have hd3 : i % 10 < 10 := by omega
  have f1 := digit_char_facts _ hd1
  have f2 := digit_char_facts _ hd2
  have f3 := digit_char_facts _ hd3
  refine ⟨?_, ?_, rfl⟩
  · intro c hc
    simp only [pad3, List.mem_cons, List.not_mem_nil, or_false] at hc
    rcases hc with rfl | rfl | rfl
    · exact f1.1
    · exact f2.1
    · exact f3.1
  · simp only [pad3, digitsToNat, List.length_cons, List.length_nil, f1.2, f2.2, f3.2]
    unfold digitVal
    omega

/-! ### Per-code normalization (process.py lines 137-145)

```python
if icd_version >= 6:
    lp_code_map = {c: c[:-1] for c in df["code"].unique()}
else:
    lp_code_map = {c: left_pad_code(c) for c in df["code"].unique()}
```
-/

/-- The normalized (`lp_code`) form of one raw code for a given ICD revision:
for revisions ≥ 6 simply drop the last character, otherwise `left_pad_code`. -/
def lpOf (rev : Nat) (code : List Char) : Option (List Char) :=
  if 6 ≤ rev then some code.dropLast else left_pad_code code

/-- The leading chapter number of a code: for revisions ≥ 6 the value of the
three-digit prefix (chapters are three-digit for four-digit numeric codes),
otherwise the value of the leading digit run. -/
def chapterOf (rev : Nat) (code : List Char) : Nat :=
  if 6 ≤ rev then digitsToNat (code.take 3) else chapterNum code

/-- Dropping leading `'0'` characters does not change the value of the
leading digit run. -/
theorem digitsToNat_takeWhile_dropWhile_zero :
    ∀ code : List Char,
      digitsToNat ((code.dropWhile (fun c => c == '0')).takeWhile Char.isDigit)
        = chapterNum code := by
  intro code
  induction code with
  | nil => rfl
  | cons c t ih =>
      by_cases hc : c = '0'
      · subst hc
        have hdrop : (('0' :: t).dropWhile (fun c => c == '0')) = t.dropWhile (fun c => c == '0') := by
          simp [List.dropWhile]
        have htake : (('0' :: t).takeWhile Char.isDigit) = '0' :: t.takeWhile Char.isDigit := by
          simp [List.takeWhile]
        rw [hdrop, ih]
        have h0 : digitVal '0' = 0 := by decide
        unfold chapterNum
        rw [htake]
        simp [digitsToNat, h0]
      · have hcb : (c == '0') = false := by simpa using hc
        have hdrop : ((c :: t).dropWhile (fun x => x == '0')) = c :: t := by
          simp [List.dropWhile, hcb]
        rw [hdrop]
        rfl

/-- Destructuring a successful `left_pad_code` run. -/
theorem left_pad_code_eq {code lp : List Char} (h : left_pad_code code = some lp) :
    0 < digitsToNat ((code.dropWhile (fun c => c == '0')).takeWhile Char.isDigit) ∧
    digitsToNat ((code.dropWhile (fun c => c == '0')).takeWhile Char.isDigit) ≤ 999 ∧
    lp = pad3 (digitsToNat ((code.dropWhile (fun c => c == '0')).takeWhile Char.isDigit))
          ++ (code.dropWhile (fun c => c == '0')).drop
              ((code.dropWhile (fun c => c == '0')).takeWhile Char.isDigit).length := by
  simp only [left_pad_code] at h
  split at h
  · simp at h
  · split at h
    · rename_i hrange
      refine ⟨hrange.1, hrange.2, ?_⟩
      simpa using h.symm
    · simp at h

/-- C9: For every pair of valid codes `A`, `B` of one revision, if `A`'s leading
chapter number is strictly below `B`'s then the normalized forms compare
strictly in lexicographic string order.  For revisions < 6 the normalization is
`left_pad_code` (extract the leading digit run, require it in `[1, 999]`,
zero-pad to three digits, append the remaining suffix unchanged); for
revisions ≥ 6 it drops the last character of the (four-digit numeric) code. -/
theorem c9_normalize_order_preserving
    (rev : Nat) (A B a b : List Char)
    (ha : lpOf rev A = some a) (hb : lpOf rev B = some b)
    (hvalid : rev < 6 ∨
      (A.length = 4 ∧ (∀ c ∈ A, c.isDigit = true) ∧ B.length = 4 ∧ (∀ c ∈ B, c.isDigit = true)))
    (hch : chapterOf rev A < chapterOf rev B) :
    strLt a b = true := by
  by_cases h6 : 6 ≤ rev
  · rcases hvalid with h | ⟨hA4, hAd, hB4, hBd⟩
    · omega
    simp only [lpOf, if_pos h6, Option.some.injEq] at ha hb
    simp only [chapterOf, if_pos h6] at hch
    subst ha
    subst hb
    rw [List.dropLast_eq_take, List.dropLast_eq_take, hA4, hB4]
    have hlen : (A.take (4 - 1)).length = (B.take (4 - 1)).length := by
      rw [List.length_take, List.length_take, hA4, hB4]
    exact strLt_of_digitsToNat_lt _ _ hlen
      (fun c hc => hAd c (List.take_subset _ _ hc))
      (fun c hc => hBd c (List.take_subset _ _ hc))
      (by simpa using hch)
  · simp only [lpOf, if_neg h6, chapterOf] at ha hb hch
    obtain ⟨hA1, hA2, hA3⟩ := left_pad_code_eq ha
    obtain ⟨hB1, hB2, hB3⟩ := left_pad_code_eq hb
    rw [digitsToNat_takeWhile_dropWhile_zero] at hA1 hA2 hA3
    rw [digitsToNat_takeWhile_dropWhile_zero] at hB1 hB2 hB3
    obtain ⟨hpAd, hpAv, hpAl⟩ := pad3_spec hA1 hA2
    obtain ⟨hpBd, hpBv, hpBl⟩ := pad3_spec hB1 hB2
    subst hA3
    subst hB3
    refine strLt_append_of_strLt _ _ _ _ (by rw [hpAl, hpBl]) ?_
    exact strLt_of_digitsToNat_lt _ _ (by rw [hpAl, hpBl]) hpAd hpBd
      (by rw [hpAv, hpBv]; exact hch)

/-- Witness for C9 at revision 2: codes `"87a"` (chapter 87) and `"104"`
(chapter 104) normalize to `"087a"` and `"104"`, which compare strictly. -/
theorem c9_normalize_order_preserving_witness :
    lpOf 2 ['8', '7', 'a'] = some ['0', '8', '7', 'a'] ∧
    lpOf 2 ['1', '0', '4'] = some ['1', '0', '4'] ∧
    chapterOf 2 ['8', '7', 'a'] < chapterOf 2 ['1', '0', '4'] ∧
    strLt ['0', '8', '7', 'a'] ['1', '0', '4'] = true :=
  ⟨by decide, by decide, by decide,
    c9_normalize_order_preserving 2 ['8', '7', 'a'] ['1', '0', '4'] _ _
      (by decide) (by decide) (Or.inl (by decide)) (by decide)⟩

/-! ### Category configuration (process.py lines 46-121)

`ICD_CATEGORIES` is transcribed verbatim; the Python dict keys `"ICD-N"`
become the numeric revision `N`.  Python dicts preserve insertion order, so
category processing order is the list order below. -/

def OTHER_LABEL : String := "Other diseases"

def ICD_CATEGORIES : List (String × List (Nat × String)) := [
  ("Infectious diseases",
    [(9, "1-139"), (8, "1-136"), (7, "1-138, 571, 696, 764"),
     (6, "1-138, 571, 696, 697, 764"),
     (5, "1-32, 34-44a, 44c-44d, 119-120, 177"),
     (4, "1-10, 12-44, 79-80, 119-120, 177"),
     (3, "1-10, 12-42, 71, 72, 76, 113-116, 121, 175"),
     (2, "1-9, 11-25, 28-35, 37-38, 62, 104A, 105A, 106, 107, 112, 164")]),
  ("Respiratory diseases",
    [(9, "460-519"), (8, "460-519"), (7, "240, 241, 470-527"),
     (6, "240, 241, 470-527"),
     (5, "33, 104-114, 115b-115d"), (4, "11, 104-114, 115(3)"),
     (3, "11, 97-107, 109"), (2, "10, 86-87, 89-98, 100")]),
  ("Injury and poisoning",
    [(9, "800-999"), (8, "800-999"), (7, "242, 245, 365, 800-999"),
     (6, "242, 245, 365, 800-999"),
     (5, "66B, 78, 79, 163-176, 178-198"),
     (4, "77, 163-176, 178-198"),
     (3, "67, 163, 165-174, 176-199, 201-203"),
     (2, "57-58, 153, 155-163, 165-186")]),
  ("Circulatory diseases",
    [(9, "390-459"), (8, "390-459, 782"), (7, "330-334, 400-454, 456-468, 782"),
     (6, "330-334, 400-454, 456-468, 782"),
     (5, "58, 83a-83c, 87a, 90-97, 99-103, 200"),
     (4, "56, 82a-82b, 87a, 90-97, 99-103, 200"),
     (3, "51, 74, 81, 83, 87-96, 205"),
     (2, "47, 64, 65, 72, 77-85")]),
  ("Digestive diseases",
    [(9, "520-579"), (8, "444.2, 520-577"), (7, "530-570, 572-587"),
     (6, "530-570, 572-587"),
     (5, "116-118, 121-129"), (4, "115a, 116-118, 121-129"),
     (3, "108, 110-112, 117-120, 122-127"),
     (2, "99, 101-103, 104B-104H, 105B-105H, 108-111, 113-118")]),
  ("Cancer",
    [(9, "140-239"), (8, "140-239"), (7, "140-220, 222-239, 294"),
     (6, "140-220, 222-239, 294"),
     (5, "44b, 45-57, 74"), (4, "45-55, 72"),
     (3, "43-50, 65, 84(2), 137, 139"),
     (2, "39-46, 53, 74c, 129")])]

/-! ### Range-string tokenization (process.py line 149)

```python
for code in [c.strip().strip(",") for c in codes.split()]:
```
-/

/-- Split a character list at every occurrence of `sep`. -/
def splitChar (sep : Char) : List Char → List (List Char)
  | [] => [[]]
  | a :: t =>
      if a == sep then [] :: splitChar sep t
      else
        match splitChar sep t with
        | h :: r => (a :: h) :: r
        | [] => [[a]]

/-- Remove characters satisfying `p` from both ends (Python `str.strip`). -/
def dropAround (p : Char → Bool) (l : List Char) : List Char :=
  ((l.dropWhile p).reverse.dropWhile p).reverse

/-- Python `c.strip().strip(",")` on one token. -/
def stripToken (t : List Char) : List Char :=
  dropAround (fun c => c == ',') (dropAround (fun c => c == ' ') t)

/-- Python `codes.split()` (the configuration strings use only spaces as
whitespace) followed by the per-token strip. -/
def pyTokens (s : String) : List (List Char) :=
  ((splitChar ' ' s.data).filter (fun t => !t.isEmpty)).map stripToken

/-! ### The classifier (process.py lines 133-165) -/

/-- Failure modes of the Python code: `AssertionError` from the range assert
(`malformedCode`), `AssertionError` from the overlap assert
(`categoryOverlap`), `ValueError` from unpacking `code.split("-")`
(`badToken`), and pandas `KeyError`/`IndexError` (`keyError`). -/
inductive PErr where
  | malformedCode
  | categoryOverlap
  | badToken
  | keyError
deriving DecidableEq

/-- `start_code, end_code = code.split("-") if "-" in code else (code, code)`. -/
def tokenBounds (tok : List Char) : Except PErr (List Char × List Char) :=
  if tok.contains '-' then
    match splitChar '-' tok with
    | [a, b] => .ok (a, b)
    | _ => .error .badToken
  else .ok (tok, tok)

/-- The normalized inclusive interval of one range token:
`[left_pad_code(start), left_pad_code(end) + "z"]`. -/
def tokenInterval (tok : List Char) : Except PErr (List Char × List Char) := do
  let (sc, ec) ← tokenBounds tok
  match left_pad_code sc, left_pad_code ec with
  | some lo, some hi => .ok (lo, hi ++ ['z'])
  | _, _ => .error .malformedCode

/-- One data-frame row as far as classification is concerned. -/
structure CRow where
  code : List Char
  lp : List Char
  category : String
deriving DecidableEq

/-- `(df["lp_code"] >= lo) & (df["lp_code"] <= hi)` for one row. -/
def inInterval (lo hi lp : List Char) : Bool := strLe lo lp && strLe lp hi

/-- Whether a token's normalized interval covers a normalized code. -/
def selB (tok lp : List Char) : Bool :=
  match tokenInterval tok with
  | .ok (lo, hi) => inInterval lo hi lp
  | .error _ => false

/-- Process one `(category, token)` pair: the overlap assert followed by the
category assignment (process.py lines 155-165). -/
def applyToken (cat : String) (tok : List Char) (rows : List CRow) :
    Except PErr (List CRow) :=
  match tokenInterval tok with
  | .error e => .error e
  | .ok (lo, hi) =>
      if rows.all (fun r =>
          !inInterval lo hi r.lp || (r.category == OTHER_LABEL || r.category == cat)) then
        .ok (rows.map (fun r =>
          if inInterval lo hi r.lp then { r with category := cat } else r))
      else .error .categoryOverlap

/-- The two nested loops of `map_icd_codes_to_categories`, flattened into the
sequential list of `(category, token)` pairs they process. -/
def runTokens : List (String × List Char) → List CRow → Except PErr (List CRow)
  | [], rows => .ok rows
  | (cat, tok) :: rest, rows =>
      match applyToken cat tok rows with
      | .ok rows' => runTokens rest rows'
      | .error e => .error e

/-- The `(category, token)` pairs of one revision, in processing order. -/
def categoryTokenPairs (rev : Nat) : List (String × List Char) :=
  ICD_CATEGORIES.flatMap (fun cm =>
    match cm.2.find? (fun p => p.1 == rev) with
    | some p => (pyTokens p.2).map (fun t => (cm.1, t))
    | none => [])

/-- Building the initial rows: `df["category"] = OTHER_LABEL` plus the
`lp_code` column (errors model `left_pad_code` raising on a malformed code). -/
def initRows (rev : Nat) : List (List Char) → Except PErr (List CRow)
  | [] => .ok []
  | c :: rest =>
      match lpOf rev c with
      | some lp =>
          match initRows rev rest with
          | .ok rows => .ok ({ code := c, lp := lp, category := OTHER_LABEL } :: rows)
          | .error e => .error e
      | none => .error .malformedCode

/-- `map_icd_codes_to_categories` from process.py: normalize all codes, then
run every category's range tokens in configuration order. -/
def map_icd_codes_to_categories (rev : Nat) (codes : List (List Char)) :
    Except PErr (List CRow) := do
  let rows ← initRows rev codes
  runTokens (categoryTokenPairs rev) rows

/-! ### C3: normalization for revisions ≥ 6 -/

/-- C3 counterexample: under revision 6, the code `"0000"` (leading digit run
present but chapter value `0 ∉ [1, 999]` after truncation) is normalized to
`"000"` with no `MalformedCodeError`: the revision ≥ 6 branch performs no
validation at all, refuting the claim that out-of-range chapters fail. -/
theorem c3_counterexample :
    initRows 6 [['0', '0', '0', '0']]
      = .ok [⟨['0', '0', '0', '0'], ['0', '0', '0'], OTHER_LABEL⟩] ∧
    initRows 6 [['0', '0', '0', '0']] ≠ .error PErr.malformedCode ∧
    digitsToNat ['0', '0', '0'] = 0 := by
  refine ⟨rfl, ?_, rfl⟩
  intro h
  rw [show initRows 6 [['0', '0', '0', '0']]
      = .ok [⟨['0', '0', '0', '0'], ['0', '0', '0'], OTHER_LABEL⟩] from rfl] at h
  simp at h

/-- C3 amended: for every revision ≥ 6, normalization drops the last character
of every code, unconditionally and without any error: no leading-digit-run or
`[1, 999]` chapter validation is performed in this branch. -/
theorem c3_rev6_truncation (rev : Nat) (codes : List (List Char)) (h6 : 6 ≤ rev) :
    initRows rev codes
      = .ok (codes.map fun c => ⟨c, c.dropLast, OTHER_LABEL⟩) := by
  induction codes with
  | nil => rfl
  | cons c rest ih =>
      have hlp : lpOf rev c = some c.dropLast := by simp [lpOf, h6]
      simp [initRows, hlp, ih]

/-- Witness for C3 amended at revision 7. -/
theorem c3_rev6_truncation_witness :
    initRows 7 [['4', '7', '0', '2'], ['a', 'b']]
      = .ok [⟨['4', '7', '0', '2'], ['4', '7', '0'], OTHER_LABEL⟩,
             ⟨['a', 'b'], ['a'], OTHER_LABEL⟩] := by
  have := c3_rev6_truncation 7 [['4', '7', '0', '2'], ['a', 'b']] (by decide)
  simpa using this

/-! ### C4: the revision-9 classification scenario -/

/-- The scenario codes of C4 (death counts 5, 3, 2, 10, 1 play no role in
`map_icd_codes_to_categories`, which inspects only the codes). -/
def c4codes : List (List Char) :=
  [['0', '0', '1'], ['0', '0', '9'], ['1', '3', '9'], ['1', '4', '0'], ['2', '3', '9']]

/-- What the code actually produces on the C4 scenario. -/
def c4rowsActual : List CRow :=
  [⟨['0', '0', '1'], ['0', '0'], "Other diseases"⟩,
   ⟨['0', '0', '9'], ['0', '0'], "Other diseases"⟩,
   ⟨['1', '3', '9'], ['1', '3'], "Infectious diseases"⟩,
   ⟨['1', '4', '0'], ['1', '4'], "Other diseases"⟩,
   ⟨['2', '3', '9'], ['2', '3'], "Cancer"⟩]

/-- C4 counterexample: the claimed assignment (001, 009, 139 infectious;
140, 239 cancer; nothing unclassified) is false for the code: revision 9
truncates each three-character code to two characters, and the two-character
keys `"00"` and `"14"` fall outside the padded range bounds. -/
theorem c4_counterexample :
    ¬ ∃ res, map_icd_codes_to_categories 9 c4codes = Except.ok res ∧
        res.map (fun r => r.category) =
          ["Infectious diseases", "Infectious diseases", "Infectious diseases",
           "Cancer", "Cancer"] := by
  rintro ⟨res, hres, hcats⟩
  rw [show map_icd_codes_to_categories 9 c4codes = Except.ok c4rowsActual from rfl,
    Except.ok.injEq] at hres
  subst hres
  simp [c4rowsActual] at hcats

/-- C4 amended: on the revision-9 scenario the code classifies `"139"` as
infectious and `"239"` as cancer, while `"001"`, `"009"` and `"140"` are left
at the default `"Other diseases"` label (their truncated keys `"00"`, `"00"`,
`"14"` sort outside every padded range interval). -/
theorem c4_scenario_actual :
    map_icd_codes_to_categories 9 c4codes = Except.ok c4rowsActual ∧
    c4rowsActual.map (fun r => r.category) =
      ["Other diseases", "Other diseases", "Infectious diseases",
       "Other diseases", "Cancer"] :=
  ⟨rfl, rfl⟩

/-! ### C1: overlap detection

`applyToken` treats rows independently: selection and reassignment of one row
never look at another row, and the assert aborts as soon as any one row is
selected while carrying a third category.  `runRow` is the induced single-row
semantics, used to reason about `runTokens`. -/

/-- Single-row trace of the token loop: the evolution of one row's category. -/
def runRow : List (String × List Char) → List Char → String → Except PErr String
  | [], _, cur => .ok cur
  | (cat, tok) :: rest, lp, cur =>
      match tokenInterval tok with
      | .error e => .error e
      | .ok (lo, hi) =>
          if inInterval lo hi lp then
            if cur == OTHER_LABEL || cur == cat then runRow rest lp cat
            else .error .categoryOverlap
          else runRow rest lp cur

/-- A normalized code lies within a declared range interval of `cat`. -/
def coveredByIn (pairs : List (String × List Char)) (cat : String) (lp : List Char) : Bool :=
  pairs.any (fun p => p.1 == cat && selB p.2 lp)

/-- All declared range intervals covering `lp` belong to a single category. -/
def uniqueCover (pairs : List (String × List Char)) (lp : List Char) : Bool :=
  pairs.all (fun p => !selB p.2 lp ||
    pairs.all (fun q => !selB q.2 lp || (q.1 == p.1)))

/-- Every `(category, token)` pair parses to a normalized interval. -/
def pairsWF (pairs : List (String × List Char)) : Bool :=
  pairs.all (fun p => match tokenInterval p.2 with
    | .ok _ => true
    | .error _ => false)

theorem pairsWF_cons {p : String × List Char} {rest : List (String × List Char)}
    (h : pairsWF (p :: rest) = true) :
    (∃ lo hi, tokenInterval p.2 = .ok (lo, hi)) ∧ pairsWF rest = true := by
  simp only [pairsWF, List.all_cons, Bool.and_eq_true] at h
  refine ⟨?_, h.2⟩
  rcases hint : tokenInterval p.2 with e | ⟨lo, hi⟩
  · rw [hint] at h; simp at h
  · exact ⟨lo, hi, rfl⟩

/-- No category of the configuration table is the sentinel label. -/
theorem pairs_cat_ne_other (rev : Nat) :
    ∀ p ∈ categoryTokenPairs rev, p.1 ≠ OTHER_LABEL := by
  intro p hp
  unfold categoryTokenPairs at hp
  rw [List.mem_flatMap] at hp
  obtain ⟨cm, hcm, hp⟩ := hp
  have hcat : p.1 = cm.1 := by
    revert hp
    cases cm.2.find? (fun q => q.1 == rev) with
    | none => simp
    | some q =>
        intro hp
        rw [List.mem_map] at hp
        obtain ⟨t, _, ht⟩ := hp
        rw [← ht]
  rw [hcat]
  simp only [ICD_CATEGORIES, List.mem_cons, List.not_mem_nil, or_false] at hcm
  rcases hcm with rfl | rfl | rfl | rfl | rfl | rfl <;> decide

/-- Unfolding `runTokens` one step. -/
theorem runTokens_cons (cat : String) (tok : List Char)
    (rest : List (String × List Char)) (rows : List CRow) :
    runTokens ((cat, tok) :: rest) rows =
      match applyToken cat tok rows with
      | .ok rows' => runTokens rest rows'
      | .error e => .error e := rfl

/-- `applyToken` under a parsed interval: the overlap assert, then the update. -/
theorem applyToken_eq (cat : String) (tok : List Char) (rows : List CRow)
    {lo hi : List Char} (hint : tokenInterval tok = .ok (lo, hi)) :
    applyToken cat tok rows =
      if rows.all (fun r =>
          !inInterval lo hi r.lp || (r.category == OTHER_LABEL || r.category == cat)) then
        .ok (rows.map (fun r =>
          if inInterval lo hi r.lp then { r with category := cat } else r))
      else .error .categoryOverlap := by
  unfold applyToken
  rw [hint]

/-- Unfolding `runRow` one step under a parsed interval. -/
theorem runRow_cons (cat : String) (tok : List Char)
    (rest : List (String × List Char)) (lp : List Char) (cur : String)
    {lo hi : List Char} (hint : tokenInterval tok = .ok (lo, hi)) :
    runRow ((cat, tok) :: rest) lp cur =
      if inInterval lo hi lp then
        if cur == OTHER_LABEL || cur == cat then runRow rest lp cat
        else .error .categoryOverlap
      else runRow rest lp cur := by
  simp only [runRow]
  rw [hint]

/-- Under a well-formed pair list, the classification loop either completes or
aborts with the configuration-overlap error — never with any other error. -/
theorem runTokens_ok_or_overlap (pairs : List (String × List Char))
    (hwf : pairsWF pairs = true) :
    ∀ rows : List CRow, (∃ res, runTokens pairs rows = .ok res)
      ∨ runTokens pairs rows = .error .categoryOverlap := by
  induction pairs with
  | nil => exact fun rows => .inl ⟨rows, rfl⟩
  | cons p rest ih =>
      intro rows
      obtain ⟨⟨lo, hi, hint⟩, hwf'⟩ := pairsWF_cons hwf
      obtain ⟨cat, tok⟩ := p
      rw [runTokens_cons, applyToken_eq cat tok rows hint]
      by_cases hall : rows.all (fun r =>
          !inInterval lo hi r.lp || (r.category == OTHER_LABEL || r.category == cat)) = true
      · rw [if_pos hall]
        exact ih hwf' _
      · rw [if_neg hall]
        exact .inr rfl

/-- If the classification loop completes, every row's single-row trace
completes as well. -/
theorem runTokens_ok_rows {pairs : List (String × List Char)} :
    ∀ {rows res : List CRow}, runTokens pairs rows = .ok res →
      ∀ r ∈ rows, ∃ c, runRow pairs r.lp r.category = .ok c := by
  induction pairs with
  | nil => exact fun _ r _ => ⟨r.category, rfl⟩
  | cons p rest ih =>
      intro rows res h r hr
      obtain ⟨cat, tok⟩ := p
      rw [runTokens_cons] at h
      rcases hint : tokenInterval tok with e | ⟨lo, hi⟩
      · have happ : applyToken cat tok rows = .error e := by
          unfold applyToken
          rw [hint]
        rw [happ] at h
        exact Except.noConfusion (show Except.error e = Except.ok res from h)
      · rw [applyToken_eq cat tok rows hint] at h
        by_cases hall : rows.all (fun r =>
            !inInterval lo hi r.lp || (r.category == OTHER_LABEL || r.category == cat)) = true
        · rw [if_pos hall] at h
          have h' : runTokens rest (rows.map (fun r =>
              if inInterval lo hi r.lp then { r with category := cat } else r)) = .ok res := h
          have hmem : (if inInterval lo hi r.lp then { r with category := cat } else r) ∈
              rows.map (fun r =>
                if inInterval lo hi r.lp then { r with category := cat } else r) :=
            List.mem_map_of_mem _ hr
          obtain ⟨c, hc⟩ := ih h' _ hmem
          rw [List.all_eq_true] at hall
          have hcond := hall r hr
          rw [runRow_cons cat tok rest r.lp r.category hint]
          by_cases hsel : inInterval lo hi r.lp = true
          · rw [if_pos hsel]
            rw [hsel] at hcond
            simp only [Bool.not_true, Bool.false_or] at hcond
            rw [if_pos hcond]
            rw [if_pos hsel] at hc
            exact ⟨c, hc⟩
          · rw [if_neg hsel]
            rw [if_neg hsel] at hc
            exact ⟨c, hc⟩
        · rw [if_neg hall] at h
          exact Except.noConfusion (show Except.error PErr.categoryOverlap = Except.ok res from h)

/-- A row that no token selects keeps its category. -/
theorem runRow_of_not_selected (pairs : List (String × List Char)) (lp : List Char)
    (cur : String) (hwf : pairsWF pairs = true)
    (hnone : ∀ p ∈ pairs, selB p.2 lp = false) :
    runRow pairs lp cur = .ok cur := by
  induction pairs with
  | nil => rfl
  | cons p rest ih =>
      obtain ⟨⟨lo, hi, hint⟩, hwf'⟩ := pairsWF_cons hwf
      obtain ⟨cat, tok⟩ := p
      rw [runRow_cons cat tok rest lp cur hint]
      have hsel : selB tok lp = false := hnone (cat, tok) (List.mem_cons_self ..)
      rw [show selB tok lp = inInterval lo hi lp from by unfold selB; rw [hint]] at hsel
      rw [hsel]
      simp only [Bool.false_eq_true, if_false]
      exact ih hwf' fun q hq => hnone q (List.mem_cons_of_mem _ hq)

/-- If every token selecting `lp` carries category `X`, the trace completes;
it ends at `X` when some token selects, and keeps its start value otherwise. -/
theorem runRow_of_unique (pairs : List (String × List Char)) (lp : List Char)
    (X : String) (hwf : pairsWF pairs = true)
    (huniq : ∀ p ∈ pairs, selB p.2 lp = true → p.1 = X) :
    ∀ cur, cur = OTHER_LABEL ∨ cur = X →
      ∃ fin, runRow pairs lp cur = .ok fin ∧ (fin = cur ∨ fin = X) ∧
        ((∃ p ∈ pairs, selB p.2 lp = true) → fin = X) := by
  induction pairs with
  | nil =>
      intro cur _
      exact ⟨cur, rfl, Or.inl rfl, by rintro ⟨p, hp, -⟩; cases hp⟩
  | cons p rest ih =>
      intro cur hcur
      obtain ⟨⟨lo, hi, hint⟩, hwf'⟩ := pairsWF_cons hwf
      obtain ⟨cat, tok⟩ := p
      have hselB : selB tok lp = inInterval lo hi lp := by unfold selB; rw [hint]
      have huniq' : ∀ q ∈ rest, selB q.2 lp = true → q.1 = X :=
        fun q hq => huniq q (List.mem_cons_of_mem _ hq)
      rw [runRow_cons cat tok rest lp cur hint]
      by_cases hsel : inInterval lo hi lp = true
      · have hcat : cat = X := huniq (cat, tok) (List.mem_cons_self ..) (by rw [hselB]; exact hsel)
        have hcond : (cur == OTHER_LABEL || cur == cat) = true := by
          rcases hcur with rfl | rfl
          · simp
          · rw [hcat]
            simp
        rw [if_pos hsel, if_pos hcond]
        obtain ⟨fin, hfin, hfin2, _⟩ := ih hwf' huniq' cat (Or.inr hcat)
        refine ⟨fin, hfin, ?_, fun _ => ?_⟩
        · rcases hfin2 with rfl | rfl
          · exact Or.inr hcat
          · exact Or.inr rfl
        · rcases hfin2 with rfl | rfl
          · exact hcat
          · rfl
      · rw [if_neg hsel]
        obtain ⟨fin, hfin, hfin2, hfin3⟩ := ih hwf' huniq' cur hcur
        refine ⟨fin, hfin, hfin2, ?_⟩
        rintro ⟨q, hq, hqsel⟩
        rcases List.mem_cons.mp hq with rfl | hq'
        · rw [hselB] at hqsel
          exact absurd hqsel hsel
        · exact hfin3 ⟨q, hq', hqsel⟩

/-- Once a row carries a proper category, any selecting token of a different
category aborts the loop with the overlap error. -/
theorem runRow_overlap_of_conflict (pairs : List (String × List Char)) (lp : List Char) :
    ∀ cur, pairsWF pairs = true → cur ≠ OTHER_LABEL →
      (∃ p ∈ pairs, selB p.2 lp = true ∧ p.1 ≠ cur) →
      runRow pairs lp cur = .error .categoryOverlap := by
  induction pairs with
  | nil =>
      rintro cur _ _ ⟨p, hp, -⟩
      cases hp
  | cons p rest ih =>
      rintro cur hwf hcur ⟨q, hq, hqsel, hqne⟩
      obtain ⟨⟨lo, hi, hint⟩, hwf'⟩ := pairsWF_cons hwf
      obtain ⟨cat, tok⟩ := p
      have hselB : selB tok lp = inInterval lo hi lp := by unfold selB; rw [hint]
      rw [runRow_cons cat tok rest lp cur hint]
      by_cases hsel : inInterval lo hi lp = true
      · by_cases hcc : cat = cur
        · subst hcc
          have hcond : (cat == OTHER_LABEL || cat == cat) = true := by simp
          rw [if_pos hsel, if_pos hcond]
          apply ih cat hwf' hcur
          rcases List.mem_cons.mp hq with rfl | hq'
          · exact absurd rfl hqne
          · exact ⟨q, hq', hqsel, hqne⟩
        · have hcond : (cur == OTHER_LABEL || cur == cat) = false := by
            simp only [Bool.or_eq_false_iff, beq_eq_false_iff_ne, ne_eq]
            exact ⟨hcur, fun h => hcc h.symm⟩
          rw [if_pos hsel, hcond]
          simp
      · rw [if_neg hsel]
        apply ih cur hwf' hcur
        rcases List.mem_cons.mp hq with rfl | hq'
        · rw [hselB] at hqsel
          exact absurd hqsel hsel
        · exact ⟨q, hq', hqsel, hqne⟩

/-- A sentinel-category row covered by two distinct categories always aborts
the loop with the overlap error. -/
theorem runRow_overlap_of_two_covers (pairs : List (String × List Char)) (lp : List Char)
    (A B : String) (hwf : pairsWF pairs = true)
    (hnoother : ∀ p ∈ pairs, p.1 ≠ OTHER_LABEL) (hAB : A ≠ B)
    (hA : coveredByIn pairs A lp = true) (hB : coveredByIn pairs B lp = true) :
    runRow pairs lp OTHER_LABEL = .error .categoryOverlap := by
  induction pairs with
  | nil => simp [coveredByIn] at hA
  | cons p rest ih =>
      obtain ⟨⟨lo, hi, hint⟩, hwf'⟩ := pairsWF_cons hwf
      obtain ⟨cat, tok⟩ := p
      have hselB : selB tok lp = inInterval lo hi lp := by unfold selB; rw [hint]
      have hnoother' : ∀ q ∈ rest, q.1 ≠ OTHER_LABEL :=
        fun q hq => hnoother q (List.mem_cons_of_mem _ hq)
      rw [runRow_cons cat tok rest lp OTHER_LABEL hint]
      by_cases hsel : inInterval lo hi lp = true
      · have hcond : ((OTHER_LABEL == OTHER_LABEL) || (OTHER_LABEL == cat)) = true := by simp
        rw [if_pos hsel, if_pos hcond]
        have hcat : cat ≠ OTHER_LABEL := hnoother (cat, tok) (List.mem_cons_self ..)
        -- one of A, B differs from cat; its covering pair must sit in `rest`
        have hwit : ∃ X, X ≠ cat ∧ coveredByIn ((cat, tok) :: rest) X lp = true := by
          by_cases hAc : A = cat
          · exact ⟨B, by rw [← hAc]; exact fun h => hAB h.symm, hB⟩
          · exact ⟨A, hAc, hA⟩
        obtain ⟨X, hXc, hXcov⟩ := hwit
        apply runRow_overlap_of_conflict rest lp cat hwf' hcat
        unfold coveredByIn at hXcov
        rw [List.any_eq_true] at hXcov
        obtain ⟨q, hq, hqx⟩ := hXcov
        rw [Bool.and_eq_true, beq_iff_eq] at hqx
        rcases List.mem_cons.mp hq with rfl | hq'
        · exact absurd hqx.1 (Ne.symm hXc)
        · exact ⟨q, hq', hqx.2, by rw [hqx.1]; exact hXc⟩
      · rw [if_neg hsel]
        have hrest : ∀ {C : String}, coveredByIn ((cat, tok) :: rest) C lp = true →
            coveredByIn rest C lp = true := by
          intro C hc
          unfold coveredByIn at hc ⊢
          rw [List.any_eq_true] at hc
          obtain ⟨q, hq, hqc⟩ := hc
          rcases List.mem_cons.mp hq with rfl | hq'
          · rw [Bool.and_eq_true, hselB] at hqc
            exact absurd hqc.2 hsel
          · rw [List.any_eq_true]
            exact ⟨q, hq', hqc⟩
        exact ih hwf' hnoother' (hrest hA) (hrest hB)

/-- If every row's single-row trace completes, the loop completes, and each
result row is its input row with the traced final category. -/
theorem runTokens_ok_of_rows (pairs : List (String × List Char)) (hwf : pairsWF pairs = true) :
    ∀ rows : List CRow, (∀ r ∈ rows, ∃ c, runRow pairs r.lp r.category = .ok c) →
      ∃ res, runTokens pairs rows = .ok res ∧
        List.Forall₂ (fun r s => (∃ c, runRow pairs r.lp r.category = .ok c) →
          s.code = r.code ∧ s.lp = r.lp ∧
            runRow pairs r.lp r.category = .ok s.category) rows res := by
  induction pairs with
  | nil =>
      intro rows _
      exact ⟨rows, rfl, List.forall₂_same.mpr fun r _ => fun _ => ⟨rfl, rfl, rfl⟩⟩
  | cons p rest ih =>
      intro rows hok
      obtain ⟨⟨lo, hi, hint⟩, hwf'⟩ := pairsWF_cons hwf
      obtain ⟨cat, tok⟩ := p
      have hall : rows.all (fun r =>
          !inInterval lo hi r.lp || (r.category == OTHER_LABEL || r.category == cat)) = true := by
        rw [List.all_eq_true]
        intro r hr
        obtain ⟨c, hc⟩ := hok r hr
        rw [runRow_cons cat tok rest r.lp r.category hint] at hc
        by_cases hsel : inInterval lo hi r.lp = true
        · by_cases hcond : (r.category == OTHER_LABEL || r.category == cat) = true
          · rw [hsel, hcond]
            rfl
          · rw [if_pos hsel, if_neg hcond] at hc
            exact Except.noConfusion hc
        · rw [Bool.not_eq_true] at hsel
          rw [hsel]
          rfl
      have happ : applyToken cat tok rows = .ok (rows.map (fun r =>
          if inInterval lo hi r.lp then { r with category := cat } else r)) := by
        rw [applyToken_eq cat tok rows hint, if_pos hall]
      have hok' : ∀ r' ∈ rows.map (fun r =>
          if inInterval lo hi r.lp then { r with category := cat } else r),
          ∃ c, runRow rest r'.lp r'.category = .ok c := by
        intro r' hr'
        rw [List.mem_map] at hr'
        obtain ⟨r, hr, rfl⟩ := hr'
        obtain ⟨c, hc⟩ := hok r hr
        rw [runRow_cons cat tok rest r.lp r.category hint] at hc
        by_cases hsel : inInterval lo hi r.lp = true
        · rw [if_pos hsel] at hc ⊢
          by_cases hcond : (r.category == OTHER_LABEL || r.category == cat) = true
          · rw [if_pos hcond] at hc
            exact ⟨c, hc⟩
          · rw [if_neg hcond] at hc
            exact Except.noConfusion hc
        · rw [if_neg hsel] at hc ⊢
          exact ⟨c, hc⟩
      obtain ⟨res, hres, hfa⟩ := ih hwf' _ hok'
      refine ⟨res, ?_, ?_⟩
      · rw [runTokens_cons, happ]
        exact hres
      · rw [List.forall₂_map_left_iff] at hfa
        refine hfa.imp ?_
        intro r s hrs hex
        obtain ⟨c, hc⟩ := hex
        rw [runRow_cons cat tok rest r.lp r.category hint] at hc
        by_cases hsel : inInterval lo hi r.lp = true
        · rw [if_pos hsel] at hc hrs
          by_cases hcond : (r.category == OTHER_LABEL || r.category == cat) = true
          · rw [if_pos hcond] at hc
            obtain ⟨h1, h2, h3⟩ := hrs ⟨c, hc⟩
            refine ⟨h1, h2, ?_⟩
            rw [runRow_cons cat tok rest r.lp r.category hint, if_pos hsel, if_pos hcond]
            exact h3
          · rw [if_neg hcond] at hc
            exact Except.noConfusion hc
        · rw [if_neg hsel] at hc hrs
          obtain ⟨h1, h2, h3⟩ := hrs ⟨c, hc⟩
          refine ⟨h1, h2, ?_⟩
          rw [runRow_cons cat tok rest r.lp r.category hint, if_neg hsel]
          exact h3

/-- Inverting one step of `initRows`. -/
theorem initRows_cons_inv {rev : Nat} {c : List Char} {t : List (List Char)} {rows : List CRow}
    (h : initRows rev (c :: t) = .ok rows) :
    ∃ lp rows', lpOf rev c = some lp ∧ initRows rev t = .ok rows' ∧
      rows = ⟨c, lp, OTHER_LABEL⟩ :: rows' := by
  cases hlp : lpOf rev c with
  | none =>
      rw [show initRows rev (c :: t) = .error .malformedCode from by
        unfold initRows; rw [hlp]] at h
      exact Except.noConfusion h
  | some lp =>
      cases ht : initRows rev t with
      | error e =>
          rw [show initRows rev (c :: t) = .error e from by
            unfold initRows; rw [hlp, ht]] at h
          exact Except.noConfusion h
      | ok rows' =>
          rw [show initRows rev (c :: t) = .ok (⟨c, lp, OTHER_LABEL⟩ :: rows') from by
            unfold initRows; rw [hlp, ht]] at h
          injection h with h
          exact ⟨lp, rows', rfl, rfl, h.symm⟩

/-- Every initial row starts at the sentinel category. -/
theorem initRows_categories {rev : Nat} :
    ∀ {codes : List (List Char)} {rows : List CRow}, initRows rev codes = .ok rows →
      ∀ r ∈ rows, r.category = OTHER_LABEL := by
  intro codes
  induction codes with
  | nil =>
      intro rows h r hr
      injection h with h
      subst h
      cases hr
  | cons c t ih =>
      intro rows h r hr
      obtain ⟨lp, rows', _, ht, rfl⟩ := initRows_cons_inv h
      rcases List.mem_cons.mp hr with rfl | hr'
      · rfl
      · exact ih ht r hr'

/-- `map_icd_codes_to_categories` is the token loop after normalization. -/
theorem map_icd_eq_runTokens {rev : Nat} {codes : List (List Char)} {rows : List CRow}
    (hinit : initRows rev codes = .ok rows) :
    map_icd_codes_to_categories rev codes = runTokens (categoryTokenPairs rev) rows := by
  unfold map_icd_codes_to_categories
  rw [hinit]
  rfl

/-- `uniqueCover` says exactly that all selecting pairs agree on the category. -/
theorem uniqueCover_eq_true_iff {pairs : List (String × List Char)} {lp : List Char} :
    uniqueCover pairs lp = true ↔
      ∀ p ∈ pairs, selB p.2 lp = true → ∀ q ∈ pairs, selB q.2 lp = true → q.1 = p.1 := by
  unfold uniqueCover
  simp only [List.all_eq_true, Bool.or_eq_true, Bool.not_eq_true', beq_iff_eq]
  constructor
  · intro h p hp hpsel q hq hqsel
    rcases h p hp with hfalse | hall
    · rw [hpsel] at hfalse
      cases hfalse
    · rcases hall q hq with hf | he
      · rw [hqsel] at hf
        cases hf
      · exact he
  · intro h p hp
    by_cases hpsel : selB p.2 lp = true
    · refine Or.inr fun q hq => ?_
      by_cases hqsel : selB q.2 lp = true
      · exact Or.inr (h p hp hpsel q hq hqsel)
      · exact Or.inl (by rwa [Bool.not_eq_true] at hqsel)
    · exact Or.inl (by rwa [Bool.not_eq_true] at hpsel)

/-- C1: For every revision (with its well-formed configured range table) and
every normalized input table: if some code's normalized form lies within range
intervals of two distinct categories, classification aborts with the
configuration-overlap error (no silent precedence resolution); if no code is
covered by two distinct categories, classification completes with every code
either assigned a category whose ranges cover it or left at the sentinel
`"Other diseases"`. -/
theorem c1_overlap_detection (rev : Nat) (codes : List (List Char)) (rows : List CRow)
    (hwf : pairsWF (categoryTokenPairs rev) = true)
    (hinit : initRows rev codes = .ok rows) :
    ((∃ r ∈ rows, uniqueCover (categoryTokenPairs rev) r.lp = false) →
        map_icd_codes_to_categories rev codes = .error .categoryOverlap)
    ∧ ((∀ r ∈ rows, uniqueCover (categoryTokenPairs rev) r.lp = true) →
        ∃ res, map_icd_codes_to_categories rev codes = .ok res ∧
          res.length = rows.length ∧
          ∀ i (h : i < rows.length) (h' : i < res.length),
            (res.get ⟨i, h'⟩).code = (rows.get ⟨i, h⟩).code ∧
            (res.get ⟨i, h'⟩).lp = (rows.get ⟨i, h⟩).lp ∧
            (((res.get ⟨i, h'⟩).category = OTHER_LABEL ∧
                ∀ cat, coveredByIn (categoryTokenPairs rev) cat (rows.get ⟨i, h⟩).lp = false)
              ∨ coveredByIn (categoryTokenPairs rev) (res.get ⟨i, h'⟩).category
                  (rows.get ⟨i, h⟩).lp = true)) := by
  constructor
  · rintro ⟨r, hr, huc⟩
    have hnot : ¬ ∀ p ∈ categoryTokenPairs rev, selB p.2 r.lp = true →
        ∀ q ∈ categoryTokenPairs rev, selB q.2 r.lp = true → q.1 = p.1 := by
      rw [← uniqueCover_eq_true_iff]
      simp [huc]
    push_neg at hnot
    obtain ⟨p, hp, hpsel, q, hq, hqsel, hqne⟩ := hnot
    have hcovP : coveredByIn (categoryTokenPairs rev) p.1 r.lp = true := by
      unfold coveredByIn
      rw [List.any_eq_true]
      exact ⟨p, hp, by rw [Bool.and_eq_true, beq_iff_eq]; exact ⟨rfl, hpsel⟩⟩
    have hcovQ : coveredByIn (categoryTokenPairs rev) q.1 r.lp = true := by
      unfold coveredByIn
      rw [List.any_eq_true]
      exact ⟨q, hq, by rw [Bool.and_eq_true, beq_iff_eq]; exact ⟨rfl, hqsel⟩⟩
    have hrow := runRow_overlap_of_two_covers (categoryTokenPairs rev) r.lp p.1 q.1
      hwf (pairs_cat_ne_other rev) (Ne.symm hqne) hcovP hcovQ
    have hcat : r.category = OTHER_LABEL := initRows_categories hinit r hr
    rcases runTokens_ok_or_overlap (categoryTokenPairs rev) hwf rows with ⟨res, hok⟩ | herr
    · exfalso
      obtain ⟨c, hc⟩ := runTokens_ok_rows hok r hr
      rw [hcat, hrow] at hc
      exact Except.noConfusion hc
    · rw [map_icd_eq_runTokens hinit]
      exact herr
  · intro huniq
    have hok : ∀ r ∈ rows, ∃ c, runRow (categoryTokenPairs rev) r.lp r.category = .ok c := by
      intro r hr
      have hcatr : r.category = OTHER_LABEL := initRows_categories hinit r hr
      by_cases hex : ∃ p ∈ categoryTokenPairs rev, selB p.2 r.lp = true
      · obtain ⟨p₀, hp₀, hsel₀⟩ := hex
        have hvals := uniqueCover_eq_true_iff.mp (huniq r hr)
        obtain ⟨fin, hfin, -, -⟩ := runRow_of_unique (categoryTokenPairs rev) r.lp p₀.1 hwf
          (fun q hq hqs => hvals p₀ hp₀ hsel₀ q hq hqs) r.category (Or.inl hcatr)
        exact ⟨fin, hfin⟩
      · push_neg at hex
        exact ⟨r.category, runRow_of_not_selected (categoryTokenPairs rev) r.lp r.category hwf
          (fun p hp => by rw [← Bool.not_eq_true]; exact hex p hp)⟩
    obtain ⟨res, hres, hfa⟩ := runTokens_ok_of_rows (categoryTokenPairs rev) hwf rows hok
    rw [List.forall₂_iff_get] at hfa
    refine ⟨res, by rw [map_icd_eq_runTokens hinit]; exact hres, hfa.1.symm, ?_⟩
    intro i h h'
    have hrmem : rows.get ⟨i, h⟩ ∈ rows := rows.get_mem _ _
    have hcatr : (rows.get ⟨i, h⟩).category = OTHER_LABEL :=
      initRows_categories hinit _ hrmem
    obtain ⟨h1, h2, h3⟩ := hfa.2 i h h' (hok _ hrmem)
    refine ⟨h1, h2, ?_⟩
    by_cases hex : ∃ p ∈ categoryTokenPairs rev, selB p.2 (rows.get ⟨i, h⟩).lp = true
    · refine Or.inr ?_
      obtain ⟨p₀, hp₀, hsel₀⟩ := hex
      have hvals := uniqueCover_eq_true_iff.mp (huniq _ hrmem)
      obtain ⟨fin, hfin, -, hfin3⟩ := runRow_of_unique (categoryTokenPairs rev)
        (rows.get ⟨i, h⟩).lp p₀.1 hwf
        (fun q hq hqs => hvals p₀ hp₀ hsel₀ q hq hqs) _ (Or.inl hcatr)
      rw [hfin] at h3
      injection h3 with h3
      rw [← h3, hfin3 ⟨p₀, hp₀, hsel₀⟩]
      unfold coveredByIn
      rw [List.any_eq_true]
      exact ⟨p₀, hp₀, by rw [Bool.and_eq_true, beq_iff_eq]; exact ⟨rfl, hsel₀⟩⟩
    · refine Or.inl ?_
      push_neg at hex
      have hnone : ∀ p ∈ categoryTokenPairs rev, selB p.2 (rows.get ⟨i, h⟩).lp = false :=
        fun p hp => by rw [← Bool.not_eq_true]; exact hex p hp
      have hkeep := runRow_of_not_selected (categoryTokenPairs rev)
        (rows.get ⟨i, h⟩).lp (rows.get ⟨i, h⟩).category hwf hnone
      rw [hkeep] at h3
      injection h3 with h3
      refine ⟨by rw [← h3, hcatr], fun cat => ?_⟩
      unfold coveredByIn
      rw [List.any_eq_false]
      intro p hp
      rw [Bool.and_eq_true, not_and]
      intro _
      rw [hnone p hp]
      exact Bool.false_ne_true

/-- Witness for C1: revision 9, single code `"0102"` (normalized `"010"`),
covered only by the infectious-diseases range `1-139`; classification
completes with the no-overlap branch. -/
theorem c1_overlap_detection_witness :
    ∃ res, map_icd_codes_to_categories 9 [['0', '1', '0', '2']] = .ok res ∧
      res.length = ([⟨['0', '1', '0', '2'], ['0', '1', '0'], OTHER_LABEL⟩] : List CRow).length ∧
      ∀ i (h : i < ([⟨['0', '1', '0', '2'], ['0', '1', '0'], OTHER_LABEL⟩] : List CRow).length)
        (h' : i < res.length),
        (res.get ⟨i, h'⟩).code
            = (([⟨['0', '1', '0', '2'], ['0', '1', '0'], OTHER_LABEL⟩] : List CRow).get ⟨i, h⟩).code ∧
        (res.get ⟨i, h'⟩).lp
            = (([⟨['0', '1', '0', '2'], ['0', '1', '0'], OTHER_LABEL⟩] : List CRow).get ⟨i, h⟩).lp ∧
        (((res.get ⟨i, h'⟩).category = OTHER_LABEL ∧
            ∀ cat, coveredByIn (categoryTokenPairs 9) cat
              ((([⟨['0', '1', '0', '2'], ['0', '1', '0'], OTHER_LABEL⟩] : List CRow).get ⟨i, h⟩).lp)
                = false)
          ∨ coveredByIn (categoryTokenPairs 9) (res.get ⟨i, h'⟩).category
              ((([⟨['0', '1', '0', '2'], ['0', '1', '0'], OTHER_LABEL⟩] : List CRow).get ⟨i, h⟩).lp)
                = true) :=
  (c1_overlap_detection 9 [['0', '1', '0', '2']]
    [⟨['0', '1', '0', '2'], ['0', '1', '0'], OTHER_LABEL⟩]
    (by decide) rfl).2 (by decide)

/-! ### Fractions per year (process.py lines 311-315)

```python
df["frac"] = df.groupby("year", group_keys=False).apply(
    lambda g: g["n"] / g["n"].sum()
)
```

Counts are naturals, fractions exact rationals (the source uses float64; the
1e-9 tolerances of its asserts exist only to absorb float rounding). -/

/-- One aggregated row as far as the fraction computation is concerned. -/
structure AggRow where
  year : Nat
  age : List Char
  catIdx : Int
  n : Nat
deriving DecidableEq

/-- `g["n"].sum()` for the year group of `y`. -/
def yearTotal (rows : List AggRow) (y : Nat) : ℚ :=
  ((rows.filter (fun r => r.year == y)).map (fun r => (r.n : ℚ))).sum

/-- One row's fraction: its count over its year's total count. -/
def fracOf (rows : List AggRow) (r : AggRow) : ℚ := (r.n : ℚ) / yearTotal rows r.year

/-- The table with the `frac` column appended (before any older-age residual
rows are synthesized). -/
def withFrac (rows : List AggRow) : List (AggRow × ℚ) :=
  rows.map (fun r => (r, fracOf rows r))

/-! ### Older-age residual rows (process.py lines 319-341)

```python
prev_frac_sum = 1
for age in ages_sorted:
    age_frac_sum = df.loc[(year, age)]["frac"].sum()
    older_frac = prev_frac_sum - age_frac_sum
    ...append row with catIdx=0, frac=older_frac...
    prev_frac_sum = older_frac
```

Modelled per year: `fracSum age` is that year's `df.loc[(year, age)]["frac"].sum()`. -/

/-- `f"older than {int(age.split('-')[1])} years"` when the band has a dash,
else the `"Impossible!"` placeholder. -/
def olderDesc (age : List Char) : List Char :=
  if age.contains '-' then
    "older than ".data ++ (Nat.repr (digitsToNat ((splitChar '-' age).getD 1 []))).data
      ++ " years".data
  else "Impossible!".data

/-- One synthesized residual trunk row. -/
structure OlderRow where
  age : List Char
  desc : List Char
  catIdx : Int
  frac : ℚ
deriving DecidableEq

/-- The synthesized residual rows of one year, propagating the running
survival fraction from the youngest to the oldest band. -/
def olderRows (fracSum : List Char → ℚ) : ℚ → List (List Char) → List OlderRow
  | _, [] => []
  | prev, age :: rest =>
      (⟨age, olderDesc age, 0, prev - fracSum age⟩ : OlderRow)
        :: olderRows fracSum (prev - fracSum age) rest

theorem olderRows_cons (fracSum : List Char → ℚ) (prev : ℚ) (age : List Char)
    (rest : List (List Char)) :
    olderRows fracSum prev (age :: rest) =
      (⟨age, olderDesc age, 0, prev - fracSum age⟩ : OlderRow)
        :: olderRows fracSum (prev - fracSum age) rest := rfl

/-! ### Cumulative fractions and their bounds check (process.py lines 357-362)

```python
df["cumFrac"] = df.groupby(["year", "age"], group_keys=False)["frac"].apply(
    lambda g: g.cumsum()
)
assert df["cumFrac"].min() > 1.0e-9
assert df["cumFrac"].max() < 1 + 1.0e-9
```
-/

/-- Running sums starting from `acc` (pandas `cumsum` of one group). -/
def cumsumFrom (acc : ℚ) : List ℚ → List ℚ
  | [] => []
  | x :: t => (acc + x) :: cumsumFrom (acc + x) t

/-- `cumsum` of one `(year, age)` group's `frac` column. -/
def cumFracs (l : List ℚ) : List ℚ := cumsumFrom 0 l

/-- The two asserts on `cumFrac`: for a nonempty column,
`min > 1e-9` and `max < 1 + 1e-9` are exactly these per-value bounds. -/
def checkCumFrac (vals : List ℚ) : Bool :=
  vals.all (fun v =>
    decide ((1 : ℚ) / 1000000000 < v) && decide (v < 1 + 1 / 1000000000))

/-! ### The quality gate of `load_20th_century` (process.py line 237)

```python
assert (df["category"] == OTHER_LABEL).sum() / len(df) < 0.35
```

A record here is one `(category, count)` row of the year's table. -/

/-- The fraction of *records* (rows) carrying the sentinel category. -/
def unclassifiedRecordFrac (rows : List (String × Nat)) : ℚ :=
  (((rows.filter (fun r => r.1 == OTHER_LABEL)).length : ℚ)) / ((rows.length : ℚ))

/-- The assert as a pass/fail gate: `true` means the year proceeds. -/
def unclassifiedGate (rows : List (String × Nat)) : Bool :=
  decide (unclassifiedRecordFrac rows < 35 / 100)

/-- The measure the spec claims the gate uses: the fraction of the *death
count* (sum of the count column) carried by sentinel rows.  Defined from the
spec's words for comparison; the source computes `unclassifiedRecordFrac`. -/
def unclassifiedDeathFrac (rows : List (String × Nat)) : ℚ :=
  (((rows.filter (fun r => r.1 == OTHER_LABEL)).map (fun r => (r.2 : ℚ))).sum)
    / ((rows.map (fun r => (r.2 : ℚ))).sum)

/-! ### `align_trunk` (process.py lines 364-385)

```python
def align_trunk(g):
    prev_left_sum = 0
    frac_sum_per_side = g.groupby([g["age"], np.sign(g["catIdx"])])["frac"].sum()
    g = g.set_index("age")
    for a in ages_sorted:
        g.loc[a, "cumFrac"] += prev_left_sum
        prev_left_sum += frac_sum_per_side.loc[a, -1]
    for a in ages_sorted:
        trunk_row = g.loc[a][g.loc[a, "catIdx"] == 0].iloc[0]
        g.loc[a, "leftFrac"] = (
            trunk_row["cumFrac"] - trunk_row["frac"] - frac_sum_per_side.loc[a, -1]
        )
        g.loc[a, "rightFrac"] = trunk_row["cumFrac"] + frac_sum_per_side.loc[a, 1]
    return g.reset_index()
```

`frac_sum_per_side` is computed once from the incoming group `g`; a missing
`(age, sign)` key raises `KeyError`, and `iloc[0]` on an empty trunk selection
raises `IndexError` — both modelled as `.error .keyError`.  The per-age
`leftFrac`/`rightFrac` column writes become a per-age edge record. -/

/-- One layout row of a year group. -/
structure LRow where
  age : List Char
  catIdx : Int
  frac : ℚ
  cumFrac : ℚ
deriving DecidableEq

/-- `np.sign` on integers. -/
def isign (i : Int) : Int := if 0 < i then 1 else if i < 0 then -1 else 0

/-- The rows of one `(age, sign)` group. -/
def sideRows (g : List LRow) (a : List Char) (s : Int) : List LRow :=
  g.filter (fun r => r.age == a && isign r.catIdx == s)

/-- `frac_sum_per_side.loc[a, s]`: `KeyError` when the group is absent. -/
def sideSum (g : List LRow) (a : List Char) (s : Int) : Except PErr ℚ :=
  if (sideRows g a s).isEmpty then .error .keyError
  else .ok ((sideRows g a s).map (fun r => r.frac)).sum

/-- The first loop: shift each age's `cumFrac` by the accumulated left-side
mass of the preceding ages.  `g0` is the incoming group, from which
`frac_sum_per_side` was computed. -/
def shiftLoop (g0 : List LRow) : List (List Char) → ℚ → List LRow → Except PErr (List LRow)
  | [], _, g => .ok g
  | a :: rest, prevLeft, g =>
      match sideSum g0 a (-1) with
      | .ok m =>
          shiftLoop g0 rest (prevLeft + m)
            (g.map (fun r =>
              if r.age == a then { r with cumFrac := r.cumFrac + prevLeft } else r))
      | .error e => .error e

/-- `g.loc[a][g.loc[a, "catIdx"] == 0].iloc[0]`. -/
def trunkRow (g : List LRow) (a : List Char) : Except PErr LRow :=
  match g.filter (fun r => r.age == a && r.catIdx == 0) with
  | [] => .error .keyError
  | r :: _ => .ok r

/-- The per-age `leftFrac` / `rightFrac` values of the second loop. -/
structure AgeEdges where
  age : List Char
  leftFrac : ℚ
  rightFrac : ℚ
deriving DecidableEq

/-- The second loop: outer-edge fractions of each age's shifted bundle. -/
def edgeLoop (g0 gs : List LRow) : List (List Char) → Except PErr (List AgeEdges)
  | [] => .ok []
  | a :: rest =>
      match trunkRow gs a with
      | .error e => .error e
      | .ok tr =>
          match sideSum g0 a (-1) with
          | .error e => .error e
          | .ok lm =>
              match sideSum g0 a 1 with
              | .error e => .error e
              | .ok rm =>
                  match edgeLoop g0 gs rest with
                  | .error e => .error e
                  | .ok es => .ok (⟨a, tr.cumFrac - tr.frac - lm, tr.cumFrac + rm⟩ :: es)

/-- `align_trunk` on one year group, over the sorted age list. -/
def align_trunk (ages : List (List Char)) (g : List LRow) :
    Except PErr (List LRow × List AgeEdges) :=
  match shiftLoop g ages 0 g with
  | .error e => .error e
  | .ok gs =>
      match edgeLoop g gs ages with
      | .error e => .error e
      | .ok es => .ok (gs, es)

/-! ### C2: per-year fractions sum to one -/

theorem sum_map_div (l : List AggRow) (f : AggRow → ℚ) (c : ℚ) :
    (l.map (fun r => f r / c)).sum = (l.map f).sum / c := by
  induction l with
  | nil => simp
  | cons a t ih => simp [ih, add_div]

theorem filter_map_snd (l : List AggRow) (g : AggRow → ℚ) (y : Nat) :
    ((l.map (fun r => (r, g r))).filter (fun p => p.1.year == y)).map (fun p => p.2)
      = (l.filter (fun r => r.year == y)).map g := by
  induction l with
  | nil => rfl
  | cons r t ih =>
      by_cases hy : (r.year == y) = true
      · simp only [List.map_cons, List.filter_cons, hy, if_pos]
        simp [ih]
      · simp only [List.map_cons, List.filter_cons]
        rw [Bool.not_eq_true] at hy
        simp [hy, ih]

/-- C2: For a year with positive total count, every row's fraction is its
count over the year total, and the fractions of that year's rows (computed
before the older-age residual rows are synthesized) sum to exactly 1 — in
particular within the spec's 1e-9 tolerance. -/
theorem c2_year_fraction_sum (rows : List AggRow) (y : Nat) (hpos : 0 < yearTotal rows y) :
    (∀ p ∈ withFrac rows, p.1.year = y → p.2 = (p.1.n : ℚ) / yearTotal rows y) ∧
    (((withFrac rows).filter (fun p => p.1.year == y)).map (fun p => p.2)).sum = 1 ∧
    |(((withFrac rows).filter (fun p => p.1.year == y)).map (fun p => p.2)).sum - 1|
      < 1 / 1000000000 := by
  have hcong : ∀ r ∈ rows.filter (fun r => r.year == y),
      fracOf rows r = (r.n : ℚ) / yearTotal rows y := by
    intro r hr
    have hy : r.year = y := by
      have := (List.mem_filter.mp hr).2
      rwa [beq_iff_eq] at this
    unfold fracOf
    rw [hy]
  have hsum : (((withFrac rows).filter (fun p => p.1.year == y)).map (fun p => p.2)).sum = 1 := by
    unfold withFrac
    rw [filter_map_snd, List.map_congr_left hcong,
      show (fun r : AggRow => (r.n : ℚ) / yearTotal rows y)
        = fun r : AggRow => (fun s : AggRow => (s.n : ℚ)) r / yearTotal rows y from rfl,
      sum_map_div]
    exact div_self (ne_of_gt hpos)
  refine ⟨?_, hsum, by rw [hsum]; norm_num⟩
  intro p hp hy
  unfold withFrac at hp
  rw [List.mem_map] at hp
  obtain ⟨r, hr, rfl⟩ := hp
  unfold fracOf
  rw [show (r, fracOf rows r).1.year = r.year from rfl] at hy
  rw [hy]

/-- Witness for C2: a two-row year with counts 3 and 7. -/
theorem c2_year_fraction_sum_witness :
    0 < yearTotal [⟨1915, ['a'], 1, 3⟩, ⟨1915, ['a'], 2, 7⟩] 1915 ∧
    (((withFrac [⟨1915, ['a'], 1, 3⟩, ⟨1915, ['a'], 2, 7⟩]).filter
        (fun p => p.1.year == 1915)).map (fun p => p.2)).sum = 1 := by
  have hpos : 0 < yearTotal [⟨1915, ['a'], 1, 3⟩, ⟨1915, ['a'], 2, 7⟩] 1915 := by
    with_unfolding_all decide
  exact ⟨hpos, (c2_year_fraction_sum [⟨1915, ['a'], 1, 3⟩, ⟨1915, ['a'], 2, 7⟩] 1915 hpos).2.1⟩

/-! ### C5: the unclassified quality gate -/

/-- C5 counterexample: a year whose *death-count* fraction of unclassified
records is 100/103 (far above the 35% ceiling) still passes the gate, because
the code divides the number of sentinel *rows* by the number of rows (1/4
here), not death counts.  The claim's "aborts iff the death-count fraction
reaches 35%" is false at this input. -/
theorem c5_counterexample :
    unclassifiedGate [(OTHER_LABEL, 100), ("A", 1), ("B", 1), ("C", 1)] = true ∧
    35 / 100 ≤ unclassifiedDeathFrac [(OTHER_LABEL, 100), ("A", 1), ("B", 1), ("C", 1)] := by
  constructor
  · with_unfolding_all rfl
  · with_unfolding_all decide

/-- C5 amended: the gate is measured over the number of records, not death
counts: for a nonempty year table the batch proceeds iff the number of
sentinel rows is strictly below 35% of the row count, and aborts iff it
reaches it. -/
theorem c5_record_fraction_gate (rows : List (String × Nat)) (hne : rows ≠ []) :
    (unclassifiedGate rows = true ↔
      100 * (rows.filter (fun r => r.1 == OTHER_LABEL)).length < 35 * rows.length) ∧
    (unclassifiedGate rows = false ↔
      35 * rows.length ≤ 100 * (rows.filter (fun r => r.1 == OTHER_LABEL)).length) := by
  have hlen : (0 : ℚ) < (rows.length : ℚ) := by
    have : 0 < rows.length := List.length_pos.mpr hne
    exact_mod_cast this
  have hkey : unclassifiedRecordFrac rows < 35 / 100 ↔
      100 * (rows.filter (fun r => r.1 == OTHER_LABEL)).length < 35 * rows.length := by
    unfold unclassifiedRecordFrac
    rw [div_lt_iff₀ hlen]
    constructor
    · intro h
      have h' : (100 : ℚ) * (rows.filter (fun r => r.1 == OTHER_LABEL)).length
          < 35 * rows.length := by nlinarith
      exact_mod_cast h'
    · intro h
      have h' : (100 : ℚ) * (rows.filter (fun r => r.1 == OTHER_LABEL)).length
          < 35 * rows.length := by exact_mod_cast h
      nlinarith
  constructor
  · unfold unclassifiedGate
    rw [decide_eq_true_eq]
    exact hkey
  · unfold unclassifiedGate
    rw [decide_eq_false_iff_not, not_lt, ← not_lt, hkey.not, not_lt]

/-- Witness for C5 amended: three rows, one of them sentinel. -/
theorem c5_record_fraction_gate_witness :
    unclassifiedGate [(OTHER_LABEL, 1), ("A", 5), ("B", 5)] = true ∧
    100 * (([(OTHER_LABEL, 1), ("A", 5), ("B", 5)] : List (String × Nat)).filter
      (fun r => r.1 == OTHER_LABEL)).length
      < 35 * ([(OTHER_LABEL, 1), ("A", 5), ("B", 5)] : List (String × Nat)).length :=
  ⟨by with_unfolding_all rfl,
    (c5_record_fraction_gate [(OTHER_LABEL, 1), ("A", 5), ("B", 5)] (by decide)).1.mp
      (by with_unfolding_all rfl)⟩

/-! ### C6: the synthesized older-age residual rows -/

/-- Structure of `olderRows`: one catIdx-0 row per age band, in band order,
whose fraction is the running residual. -/
theorem olderRows_spec (fracSum : List Char → ℚ) :
    ∀ (ages : List (List Char)) (prev : ℚ),
      (olderRows fracSum prev ages).length = ages.length ∧
      ∀ i (h : i < ages.length) (h' : i < (olderRows fracSum prev ages).length),
        ((olderRows fracSum prev ages).get ⟨i, h'⟩).age = ages.get ⟨i, h⟩ ∧
        ((olderRows fracSum prev ages).get ⟨i, h'⟩).catIdx = 0 ∧
        ((olderRows fracSum prev ages).get ⟨i, h'⟩).desc = olderDesc (ages.get ⟨i, h⟩) ∧
        ((olderRows fracSum prev ages).get ⟨i, h'⟩).frac =
          (if i = 0 then prev
           else ((olderRows fracSum prev ages).get ⟨i - 1, by omega⟩).frac)
            - fracSum (ages.get ⟨i, h⟩) := by
  intro ages
  induction ages with
  | nil => exact fun prev => ⟨rfl, fun i h => absurd h (by simp)⟩
  | cons a rest ih =>
      intro prev
      constructor
      · rw [olderRows_cons]
        simpa using (ih (prev - fracSum a)).1
      · intro i h h'
        cases i with
        | zero => exact ⟨rfl, rfl, rfl, rfl⟩
        | succ j =>
            have hj : j < rest.length := by simpa using h
            have hj' : j < (olderRows fracSum (prev - fracSum a) rest).length := by
              rw [(ih (prev - fracSum a)).1]
              exact hj
            have hrest := (ih (prev - fracSum a)).2 j hj hj'
            refine ⟨hrest.1, hrest.2.1, hrest.2.2.1, ?_⟩
            cases j with
            | zero => simpa using hrest.2.2.2
            | succ k => simpa using hrest.2.2.2

/-- The fraction sums of the C6 scenario: band `"00-01"` consumes 0.6 of the
cohort, band `"01-05"` consumes 0.3. -/
def c6frac : List Char → ℚ := fun a =>
  if a = ['0', '0', '-', '0', '1'] then 3 / 5
  else if a = ['0', '1', '-', '0', '5'] then 3 / 10
  else 0

/-- C6: per year exactly one residual trunk row is synthesized per age band,
sequentially from the youngest band starting at survival fraction 1, each
residual being the previous residual minus the band's fraction sum; on the
scenario bands `"00-01"` (0.6) and `"01-05"` (0.3) the `"older than 1 years"`
row carries fraction 0.4 and the `"older than 5 years"` row carries 0.1. -/
theorem c6_residual_rows (fracSum : List Char → ℚ) (ages : List (List Char)) :
    ((olderRows fracSum 1 ages).length = ages.length ∧
      ∀ i (h : i < ages.length) (h' : i < (olderRows fracSum 1 ages).length),
        ((olderRows fracSum 1 ages).get ⟨i, h'⟩).age = ages.get ⟨i, h⟩ ∧
        ((olderRows fracSum 1 ages).get ⟨i, h'⟩).catIdx = 0 ∧
        ((olderRows fracSum 1 ages).get ⟨i, h'⟩).desc = olderDesc (ages.get ⟨i, h⟩) ∧
        ((olderRows fracSum 1 ages).get ⟨i, h'⟩).frac =
          (if i = 0 then 1
           else ((olderRows fracSum 1 ages).get ⟨i - 1, by omega⟩).frac)
            - fracSum (ages.get ⟨i, h⟩)) ∧
    olderRows c6frac 1 [['0', '0', '-', '0', '1'], ['0', '1', '-', '0', '5']]
      = [⟨['0', '0', '-', '0', '1'], "older than 1 years".data, 0, 2 / 5⟩,
         ⟨['0', '1', '-', '0', '5'], "older than 5 years".data, 0, 1 / 10⟩] :=
  ⟨olderRows_spec fracSum ages 1, by with_unfolding_all rfl⟩

/-- Witness for C6: on the scenario, the second band's residual is the first
band's residual minus the second band's fraction sum. -/
theorem c6_residual_rows_witness :
    ((olderRows c6frac 1 [['0', '0', '-', '0', '1'], ['0', '1', '-', '0', '5']]).get
        ⟨1, by with_unfolding_all decide⟩).frac
      = ((olderRows c6frac 1 [['0', '0', '-', '0', '1'], ['0', '1', '-', '0', '5']]).get
          ⟨0, by with_unfolding_all decide⟩).frac
        - c6frac ['0', '1', '-', '0', '5'] := by
  have h := (c6_residual_rows c6frac
    [['0', '0', '-', '0', '1'], ['0', '1', '-', '0', '5']]).1.2 1 (by decide)
    (by with_unfolding_all decide)
  simpa using h.2.2.2

/-! ### C8: the cumulative-fraction bounds check -/

/-- The last running sum is the total sum. -/
theorem cumsumFrom_getLast (l : List ℚ) :
    ∀ acc, l ≠ [] → (cumsumFrom acc l).getLast? = some (acc + l.sum) := by
  induction l with
  | nil => exact fun acc h => absurd rfl h
  | cons x t ih =>
      intro acc _
      cases t with
      | nil => simp [cumsumFrom]
      | cons y s =>
          rw [show cumsumFrom acc (x :: y :: s)
              = (acc + x) :: (acc + x + y) :: cumsumFrom (acc + x + y) s from rfl,
            List.getLast?_cons_cons,
            show (acc + x + y) :: cumsumFrom (acc + x + y) s
              = cumsumFrom (acc + x) (y :: s) from rfl,
            ih (acc + x) (by simp)]
          congr 1
          simp only [List.sum_cons]
          ring

/-- C8 counterexample: for the year-age group with counts 3, 3, 4 the
fractions are 3/10, 3/10, 2/5; their cumulative sums end at exactly 1, which
is *not* strictly inside (0, 1), yet both asserts pass: the code's actual
bounds are `(1e-9, 1 + 1e-9)`, not the open interval `(0, 1)`. -/
theorem c8_counterexample :
    ((withFrac [⟨1915, ['a'], -1, 3⟩, ⟨1915, ['a'], 0, 3⟩, ⟨1915, ['a'], 1, 4⟩]).map
        (fun p => p.2)) = [3 / 10, 3 / 10, 2 / 5] ∧
    cumFracs [3 / 10, 3 / 10, 2 / 5] = [3 / 10, 3 / 5, 1] ∧
    (1 : ℚ) ∈ cumFracs [3 / 10, 3 / 10, 2 / 5] ∧
    checkCumFrac (cumFracs [3 / 10, 3 / 10, 2 / 5]) = true ∧
    ¬ ((1 : ℚ) < 1) := by
  refine ⟨by with_unfolding_all rfl, by with_unfolding_all rfl, ?_,
    by with_unfolding_all rfl, by norm_num⟩
  rw [show cumFracs [3 / 10, 3 / 10, 2 / 5] = [3 / 10, 3 / 5, 1] from by with_unfolding_all rfl]
  simp

/-- C8 amended: the check on cumulative fractions accepts exactly the values
in the open interval `(1e-9, 1 + 1e-9)` — looser than the claimed `(0, 1)` —
and necessarily so: the last cumulative value of a group equals the group's
total fraction, which is exactly 1 for a full-mass group. -/
theorem c8_cumfrac_bounds (vals : List ℚ) (fracs : List ℚ) (hne : fracs ≠ []) :
    (checkCumFrac vals = true ↔
      ∀ v ∈ vals, 1 / 1000000000 < v ∧ v < 1 + 1 / 1000000000) ∧
    (cumFracs fracs).getLast? = some fracs.sum := by
  constructor
  · unfold checkCumFrac
    rw [List.all_eq_true]
    constructor
    · intro hall v hv
      have := hall v hv
      rw [Bool.and_eq_true, decide_eq_true_eq, decide_eq_true_eq] at this
      exact this
    · intro hall v hv
      rw [Bool.and_eq_true, decide_eq_true_eq, decide_eq_true_eq]
      exact hall v hv
  · unfold cumFracs
    rw [cumsumFrom_getLast fracs 0 hne]
    rw [zero_add]

/-- Witness for C8 amended: a two-step group summing to 1. -/
theorem c8_cumfrac_bounds_witness :
    checkCumFrac [(1 : ℚ) / 2] = true ∧
    (cumFracs [(1 : ℚ) / 2, 1 / 2]).getLast? = some (([(1 : ℚ) / 2, 1 / 2] : List ℚ).sum) := by
  have h := c8_cumfrac_bounds [(1 : ℚ) / 2] [(1 : ℚ) / 2, 1 / 2] (by simp)
  refine ⟨h.1.mpr ?_, h.2⟩
  intro v hv
  rw [List.mem_singleton] at hv
  subst hv
  constructor
  · with_unfolding_all decide
  · with_unfolding_all decide

/-! ### C10: `align_trunk` needs both sides of every age band -/

theorem isign_eq_neg_one {i : Int} : isign i = -1 ↔ i < 0 := by
  unfold isign
  by_cases h1 : 0 < i
  · simp only [if_pos h1]
    omega
  · rw [if_neg h1]
    by_cases h2 : i < 0
    · simp [h2]
    · simp only [if_neg h2]
      omega

theorem isign_eq_one {i : Int} : isign i = 1 ↔ 0 < i := by
  unfold isign
  by_cases h1 : 0 < i
  · simp [h1]
  · rw [if_neg h1]
    by_cases h2 : i < 0
    · simp only [if_pos h2]
      omega
    · simp only [if_neg h2]
      omega

/-- A present `(age, sign)` side sum exhibits a row on that side. -/
theorem sideSum_ok_mem {g : List LRow} {a : List Char} {s : Int} {m : ℚ}
    (h : sideSum g a s = .ok m) : ∃ r ∈ g, r.age = a ∧ isign r.catIdx = s := by
  unfold sideSum at h
  by_cases he : (sideRows g a s).isEmpty = true
  · rw [if_pos he] at h
    exact Except.noConfusion h
  · have hne : sideRows g a s ≠ [] := by
      intro hnil
      rw [hnil] at he
      exact he rfl
    obtain ⟨r, hr⟩ := List.exists_mem_of_ne_nil _ hne
    unfold sideRows at hr
    have hm := List.mem_filter.mp hr
    have hp := hm.2
    rw [Bool.and_eq_true, beq_iff_eq, beq_iff_eq] at hp
    exact ⟨r, hm.1, hp.1, hp.2⟩

/-- If the shift loop completes, every listed age has a negative-side sum. -/
theorem shiftLoop_ok_sides {g0 : List LRow} :
    ∀ {ages : List (List Char)} {prevLeft : ℚ} {g gs : List LRow},
      shiftLoop g0 ages prevLeft g = .ok gs →
      ∀ a ∈ ages, ∃ m, sideSum g0 a (-1) = .ok m := by
  intro ages
  induction ages with
  | nil =>
      intro _ _ _ _ a ha
      cases ha
  | cons b rest ih =>
      intro prevLeft g gs h a ha
      cases hs : sideSum g0 b (-1) with
      | error e =>
          rw [show shiftLoop g0 (b :: rest) prevLeft g = .error e from by
            simp only [shiftLoop]; rw [hs]] at h
          exact Except.noConfusion h
      | ok m =>
          rw [show shiftLoop g0 (b :: rest) prevLeft g
              = shiftLoop g0 rest (prevLeft + m)
                  (g.map (fun r =>
                    if r.age == b then { r with cumFrac := r.cumFrac + prevLeft } else r))
              from by simp only [shiftLoop]; rw [hs]] at h
          rcases List.mem_cons.mp ha with rfl | ha'
          · exact ⟨m, hs⟩
          · exact ih h a ha'

/-- If the edge loop completes, every listed age has a positive-side sum. -/
theorem edgeLoop_ok_sides {g0 gs : List LRow} :
    ∀ {ages : List (List Char)} {es : List AgeEdges},
      edgeLoop g0 gs ages = .ok es →
      ∀ a ∈ ages, ∃ m, sideSum g0 a 1 = .ok m := by
  intro ages
  induction ages with
  | nil =>
      intro _ _ a ha
      cases ha
  | cons b rest ih =>
      intro es h a ha
      cases htr : trunkRow gs b with
      | error e =>
          rw [show edgeLoop g0 gs (b :: rest) = .error e from by
            simp only [edgeLoop]; rw [htr]] at h
          exact Except.noConfusion h
      | ok tr =>
          cases hl : sideSum g0 b (-1) with
          | error e =>
              rw [show edgeLoop g0 gs (b :: rest) = .error e from by
                simp only [edgeLoop]; rw [htr, hl]] at h
              exact Except.noConfusion h
          | ok lm =>
              cases hr : sideSum g0 b 1 with
              | error e =>
                  rw [show edgeLoop g0 gs (b :: rest) = .error e from by
                    simp only [edgeLoop]; rw [htr, hl, hr]] at h
                  exact Except.noConfusion h
              | ok rm =>
                  cases hrest : edgeLoop g0 gs rest with
                  | error e =>
                      rw [show edgeLoop g0 gs (b :: rest) = .error e from by
                        simp only [edgeLoop]; rw [htr, hl, hr, hrest]] at h
                      exact Except.noConfusion h
                  | ok es' =>
                      rcases List.mem_cons.mp ha with rfl | ha'
                      · exact ⟨rm, hr⟩
                      · exact ih hrest a ha'

/-- C10: the trunk-alignment pass succeeds only when every listed age band has
at least one negative-index row and at least one positive-index row; a band
with an empty side makes the pass fail with an exception (pandas `KeyError`). -/
theorem c10_align_trunk_requires_both_sides (ages : List (List Char)) (g : List LRow)
    (res : List LRow × List AgeEdges) (h : align_trunk ages g = .ok res) :
    ∀ a ∈ ages, (∃ r ∈ g, r.age = a ∧ r.catIdx < 0) ∧ (∃ r ∈ g, r.age = a ∧ 0 < r.catIdx) := by
  unfold align_trunk at h
  cases hs : shiftLoop g ages 0 g with
  | error e =>
      rw [hs] at h
      exact Except.noConfusion (show Except.error e = Except.ok res from h)
  | ok gs =>
      rw [hs] at h
      have h2 : (match edgeLoop g gs ages with
        | Except.error e => Except.error e
        | Except.ok es => Except.ok (gs, es)) = Except.ok res := h
      cases he : edgeLoop g gs ages with
      | error e =>
          rw [he] at h2
          exact Except.noConfusion (show Except.error e = Except.ok res from h2)
      | ok es =>
          intro a ha
          obtain ⟨m, hm⟩ := shiftLoop_ok_sides hs a ha
          obtain ⟨m', hm'⟩ := edgeLoop_ok_sides he a ha
          obtain ⟨r, hrg, hra, hrs⟩ := sideSum_ok_mem hm
          obtain ⟨q, hqg, hqa, hqs⟩ := sideSum_ok_mem hm'
          exact ⟨⟨r, hrg, hra, isign_eq_neg_one.mp hrs⟩,
            ⟨q, hqg, hqa, isign_eq_one.mp hqs⟩⟩

/-- Witness for C10: a one-band group with a row on each side of the trunk,
on which the alignment pass succeeds. -/
theorem c10_align_trunk_requires_both_sides_witness :
    (∃ r ∈ ([⟨['a'], -1, 1 / 4, 1 / 4⟩, ⟨['a'], 0, 1 / 2, 3 / 4⟩,
        ⟨['a'], 1, 1 / 4, 1⟩] : List LRow), r.age = ['a'] ∧ r.catIdx < 0) ∧
    (∃ r ∈ ([⟨['a'], -1, 1 / 4, 1 / 4⟩, ⟨['a'], 0, 1 / 2, 3 / 4⟩,
        ⟨['a'], 1, 1 / 4, 1⟩] : List LRow), r.age = ['a'] ∧ 0 < r.catIdx) :=
  c10_align_trunk_requires_both_sides [['a']]
    [⟨['a'], -1, 1 / 4, 1 / 4⟩, ⟨['a'], 0, 1 / 2, 3 / 4⟩, ⟨['a'], 1, 1 / 4, 1⟩]
    ([⟨['a'], -1, 1 / 4, 1 / 4⟩, ⟨['a'], 0, 1 / 2, 3 / 4⟩, ⟨['a'], 1, 1 / 4, 1⟩],
      [⟨['a'], 0, 1⟩])
    (by with_unfolding_all rfl) ['a'] (List.mem_cons_self ..)

/-! ### C7: what the alignment shift actually aligns -/

/-- The two-band year group used to refute C7 as stated.  Band `"1"`:
left 1/5, trunk 1/2, right 3/10 (cumulative 1/5, 7/10, 1).  Band `"2"`:
left 1/10, trunk 3/10, right 1/10 (cumulative 1/10, 2/5, 1/2). -/
def c7g : List LRow :=
  [⟨['1'], -1, 1 / 5, 1 / 5⟩, ⟨['1'], 0, 1 / 2, 7 / 10⟩, ⟨['1'], 1, 3 / 10, 1⟩,
   ⟨['2'], -1, 1 / 10, 1 / 10⟩, ⟨['2'], 0, 3 / 10, 2 / 5⟩, ⟨['2'], 1, 1 / 10, 1 / 2⟩]

/-- The shifted rows `align_trunk` produces on `c7g`. -/
def c7gs : List LRow :=
  [⟨['1'], -1, 1 / 5, 1 / 5⟩, ⟨['1'], 0, 1 / 2, 7 / 10⟩, ⟨['1'], 1, 3 / 10, 1⟩,
   ⟨['2'], -1, 1 / 10, 3 / 10⟩, ⟨['2'], 0, 3 / 10, 3 / 5⟩, ⟨['2'], 1, 1 / 10, 7 / 10⟩]

/-- The edge records `align_trunk` produces on `c7g`. -/
def c7es : List AgeEdges := [⟨['1'], 0, 1⟩, ⟨['2'], 1 / 5, 7 / 10⟩]

/-- C7 counterexample: on `c7g` the cumulative left-side mass after band `"1"`
is 1/5, but the shifted trunk segment of band `"2"` starts at
`cumFrac - frac = 3/5 - 3/10 = 3/10 ≠ 1/5`: the trunk of an age band does
*not* start where the previous band's cumulative left-side mass ended (what
starts there is the band's full bundle, i.e. its `leftFrac`). -/
theorem c7_counterexample :
    align_trunk [['1'], ['2']] c7g = .ok (c7gs, c7es) ∧
    trunkRow c7gs ['2'] = .ok ⟨['2'], 0, 3 / 10, 3 / 5⟩ ∧
    (3 / 5 - 3 / 10 : ℚ) = 3 / 10 ∧
    sideSum c7g ['1'] (-1) = .ok (1 / 5) ∧
    (3 / 10 : ℚ) ≠ 1 / 5 := by
  refine ⟨by with_unfolding_all rfl, by with_unfolding_all rfl,
    by with_unfolding_all rfl, by with_unfolding_all rfl, by with_unfolding_all decide⟩

/-! #### The general shape of the aligned layout

`BandSpec` describes one age band of a year group in the sorted row order the
pipeline guarantees when `align_trunk` is reached: negative-side rows, then
the single trunk row, then positive-side rows, with `cumFrac` the running sum
of `frac` within the band. -/

structure BandSpec where
  age : List Char
  negs : List (Int × ℚ)
  trunkFrac : ℚ
  poss : List (Int × ℚ)

/-- Total fraction of a band's negative (left) side. -/
def leftMass (b : BandSpec) : ℚ := (b.negs.map (fun p => p.2)).sum

/-- Total fraction of a band's positive (right) side. -/
def rightMass (b : BandSpec) : ℚ := (b.poss.map (fun p => p.2)).sum

/-- The `(catIdx, frac)` items of a band in row order. -/
def bandItems (b : BandSpec) : List (Int × ℚ) :=
  b.negs ++ (0, b.trunkFrac) :: b.poss

/-- Rows of one band with running cumulative fractions. -/
def rowsFrom (a : List Char) : ℚ → List (Int × ℚ) → List LRow
  | _, [] => []
  | acc, (ci, f) :: t => (⟨a, ci, f, acc + f⟩ : LRow) :: rowsFrom a (acc + f) t

/-- The rows of one band. -/
def bandRows (b : BandSpec) : List LRow := rowsFrom b.age 0 (bandItems b)

/-- The full year group in band order. -/
def buildTable (bands : List BandSpec) : List LRow := bands.flatMap bandRows

/-- Shifting one row's cumulative fraction. -/
def shiftB (p : ℚ) (r : LRow) : LRow := { r with cumFrac := r.cumFrac + p }

/-- The table after the alignment shift: band `i` is shifted by the total
left-side mass of the bands before it. -/
def shiftedTable : ℚ → List BandSpec → List LRow
  | _, [] => []
  | S, b :: rest => (bandRows b).map (shiftB S) ++ shiftedTable (S + leftMass b) rest

/-- The edge records the alignment pass produces: band `i`'s bundle spans
`[S_i, S_i + leftMass + trunkFrac + rightMass]` where `S_i` is the cumulative
left-side mass of the earlier bands. -/
def expectedEdges : ℚ → List BandSpec → List AgeEdges
  | _, [] => []
  | S, b :: rest =>
      (⟨b.age, S, S + leftMass b + b.trunkFrac + rightMass b⟩ : AgeEdges)
        :: expectedEdges (S + leftMass b) rest

/-- Cumulative left-side mass of the bands before index `i`. -/
def prefixLeft (bands : List BandSpec) (i : Nat) : ℚ :=
  ((bands.take i).map leftMass).sum

theorem rowsFrom_age (a : List Char) :
    ∀ (items : List (Int × ℚ)) (acc : ℚ), ∀ r ∈ rowsFrom a acc items, r.age = a := by
  intro items
  induction items with
  | nil =>
      intro acc r hr
      cases hr
  | cons p t ih =>
      intro acc r hr
      obtain ⟨ci, f⟩ := p
      rcases List.mem_cons.mp hr with rfl | hr'
      · rfl
      · exact ih (acc + f) r hr'

theorem sideRows_of_ne_age {a : List Char} {s : Int} {g : List LRow}
    (h : ∀ r ∈ g, r.age ≠ a) : sideRows g a s = [] := by
  unfold sideRows
  rw [List.filter_eq_nil_iff]
  intro r hr
  rw [Bool.and_eq_true, beq_iff_eq, beq_iff_eq, not_and]
  intro hra
  exact absurd hra (h r hr)

theorem sideRows_append (g₁ g₂ : List LRow) (a : List Char) (s : Int) :
    sideRows (g₁ ++ g₂) a s = sideRows g₁ a s ++ sideRows g₂ a s :=
  List.filter_append ..

/-- Side selection over one band's rows reads off the items of that sign. -/
theorem rowsFrom_sideRows (a : List Char) (s : Int) :
    ∀ (items : List (Int × ℚ)) (acc : ℚ),
      (sideRows (rowsFrom a acc items) a s).map (fun r => r.frac)
        = (items.filter (fun p => isign p.1 == s)).map (fun p => p.2) := by
  intro items
  induction items with
  | nil => intro acc; rfl
  | cons p t ih =>
      intro acc
      obtain ⟨ci, f⟩ := p
      show (sideRows ((⟨a, ci, f, acc + f⟩ : LRow) :: rowsFrom a (acc + f) t) a s).map _ = _
      unfold sideRows
      rw [List.filter_cons, List.filter_cons]
      by_cases hs : (isign ci == s) = true
      · have hcond : ((⟨a, ci, f, acc + f⟩ : LRow).age == a
            && isign (⟨a, ci, f, acc + f⟩ : LRow).catIdx == s) = true := by
          rw [Bool.and_eq_true]
          exact ⟨by simp, hs⟩
        rw [if_pos hcond, if_pos hs, List.map_cons, List.map_cons]
        exact congrArg (f :: ·) (ih (acc + f))
      · have hcond : ((⟨a, ci, f, acc + f⟩ : LRow).age == a
            && isign (⟨a, ci, f, acc + f⟩ : LRow).catIdx == s) = false := by
          rw [Bool.and_eq_false_iff]
          right
          rwa [Bool.not_eq_true] at hs
        rw [if_neg (by rw [hcond]; exact Bool.false_ne_true), if_neg hs]
        exact ih (acc + f)

theorem bandItems_filter_neg (b : BandSpec) (hneg : ∀ p ∈ b.negs, p.1 < 0)
    (hpos : ∀ p ∈ b.poss, 0 < p.1) :
    (bandItems b).filter (fun p => isign p.1 == (-1 : Int)) = b.negs := by
  unfold bandItems
  rw [List.filter_append, List.filter_cons]
  have h1 : b.negs.filter (fun p => isign p.1 == (-1 : Int)) = b.negs := by
    rw [List.filter_eq_self]
    intro p hp
    rw [beq_iff_eq]
    exact isign_eq_neg_one.mpr (hneg p hp)
  have h0 : (isign (0, b.trunkFrac).1 == (-1 : Int)) = false := by
    rw [beq_eq_false_iff_ne]
    intro h
    rw [isign_eq_neg_one] at h
    omega
  have h2 : b.poss.filter (fun p => isign p.1 == (-1 : Int)) = [] := by
    rw [List.filter_eq_nil_iff]
    intro p hp
    rw [beq_iff_eq, isign_eq_neg_one]
    have := hpos p hp
    omega
  rw [h1, if_neg (by rw [h0]; exact Bool.false_ne_true), h2, List.append_nil]

theorem bandItems_filter_pos (b : BandSpec) (hneg : ∀ p ∈ b.negs, p.1 < 0)
    (hpos : ∀ p ∈ b.poss, 0 < p.1) :
    (bandItems b).filter (fun p => isign p.1 == (1 : Int)) = b.poss := by
  unfold bandItems
  rw [List.filter_append, List.filter_cons]
  have h1 : b.negs.filter (fun p => isign p.1 == (1 : Int)) = [] := by
    rw [List.filter_eq_nil_iff]
    intro p hp
    rw [beq_iff_eq, isign_eq_one]
    have := hneg p hp
    omega
  have h0 : (isign (0, b.trunkFrac).1 == (1 : Int)) = false := by
    rw [beq_eq_false_iff_ne]
    intro h
    rw [isign_eq_one] at h
    omega
  have h2 : b.poss.filter (fun p => isign p.1 == (1 : Int)) = b.poss := by
    rw [List.filter_eq_self]
    intro p hp
    rw [beq_iff_eq]
    exact isign_eq_one.mpr (hpos p hp)
  rw [h1, if_neg (by rw [h0]; exact Bool.false_ne_true), h2, List.nil_append]

/-- Side sums of a single band: the negative side sums to `leftMass`. -/
theorem sideSum_bandRows_neg (b : BandSpec) (hneg : ∀ p ∈ b.negs, p.1 < 0)
    (hpos : ∀ p ∈ b.poss, 0 < p.1) (hne : b.negs ≠ []) :
    sideSum (bandRows b) b.age (-1) = .ok (leftMass b) := by
  have hmap := rowsFrom_sideRows b.age (-1) (bandItems b) 0
  rw [bandItems_filter_neg b hneg hpos] at hmap
  unfold sideSum bandRows
  rw [if_neg, hmap]
  · rfl
  · intro hempty
    rw [List.isEmpty_iff] at hempty
    rw [hempty] at hmap
    exact hne (List.map_eq_nil_iff.mp hmap.symm)

/-- Side sums of a single band: the positive side sums to `rightMass`. -/
theorem sideSum_bandRows_pos (b : BandSpec) (hneg : ∀ p ∈ b.negs, p.1 < 0)
    (hpos : ∀ p ∈ b.poss, 0 < p.1) (hne : b.poss ≠ []) :
    sideSum (bandRows b) b.age 1 = .ok (rightMass b) := by
  have hmap := rowsFrom_sideRows b.age 1 (bandItems b) 0
  rw [bandItems_filter_pos b hneg hpos] at hmap
  unfold sideSum bandRows
  rw [if_neg, hmap]
  · rfl
  · intro hempty
    rw [List.isEmpty_iff] at hempty
    rw [hempty] at hmap
    exact hne (List.map_eq_nil_iff.mp hmap.symm)

theorem buildTable_age_mem {bands : List BandSpec} {r : LRow}
    (hr : r ∈ buildTable bands) : ∃ b ∈ bands, r.age = b.age := by
  unfold buildTable at hr
  rw [List.mem_flatMap] at hr
  obtain ⟨b, hb, hrb⟩ := hr
  exact ⟨b, hb, rowsFrom_age b.age (bandItems b) 0 r hrb⟩

theorem sideSum_append_left_nil {g₁ g₂ : List LRow} {a : List Char} {s : Int}
    (h : sideRows g₁ a s = []) : sideSum (g₁ ++ g₂) a s = sideSum g₂ a s := by
  unfold sideSum
  rw [sideRows_append, h, List.nil_append]

theorem sideSum_append_right_nil {g₁ g₂ : List LRow} {a : List Char} {s : Int}
    (h : sideRows g₂ a s = []) : sideSum (g₁ ++ g₂) a s = sideSum g₁ a s := by
  unfold sideSum
  rw [sideRows_append, h, List.append_nil]

/-- With pairwise-distinct band ages, the negative-side sum over the whole
table at one band's age is that band's `leftMass`. -/
theorem sideSum_buildTable_neg :
    ∀ (bands : List BandSpec),
      List.Pairwise (fun b c => b.age ≠ c.age) bands →
      (∀ b ∈ bands, ∀ p ∈ b.negs, p.1 < 0) →
      (∀ b ∈ bands, ∀ p ∈ b.poss, 0 < p.1) →
      (∀ b ∈ bands, b.negs ≠ []) →
      ∀ b ∈ bands, sideSum (buildTable bands) b.age (-1) = .ok (leftMass b) := by
  intro bands
  induction bands with
  | nil =>
      intro _ _ _ _ b hb
      cases hb
  | cons b0 rest ih =>
      intro hdist hneg hpos hne b hb
      have hsplit : buildTable (b0 :: rest) = bandRows b0 ++ buildTable rest := rfl
      rw [hsplit]
      rcases List.mem_cons.mp hb with rfl | hb'
      · rw [sideSum_append_right_nil]
        · exact sideSum_bandRows_neg b (hneg b (List.mem_cons_self ..))
            (hpos b (List.mem_cons_self ..)) (hne b (List.mem_cons_self ..))
        · refine sideRows_of_ne_age fun r hr => ?_
          obtain ⟨c, hc, hrc⟩ := buildTable_age_mem hr
          rw [hrc]
          exact fun hca => (List.pairwise_cons.mp hdist).1 c hc hca.symm
      · rw [sideSum_append_left_nil]
        · exact ih (List.pairwise_cons.mp hdist).2
            (fun c hc => hneg c (List.mem_cons_of_mem _ hc))
            (fun c hc => hpos c (List.mem_cons_of_mem _ hc))
            (fun c hc => hne c (List.mem_cons_of_mem _ hc)) b hb'
        · refine sideRows_of_ne_age fun r hr => ?_
          rw [rowsFrom_age b0.age (bandItems b0) 0 r hr]
          exact (List.pairwise_cons.mp hdist).1 b hb'

/-- With pairwise-distinct band ages, the positive-side sum over the whole
table at one band's age is that band's `rightMass`. -/
theorem sideSum_buildTable_pos :
    ∀ (bands : List BandSpec),
      List.Pairwise (fun b c => b.age ≠ c.age) bands →
      (∀ b ∈ bands, ∀ p ∈ b.negs, p.1 < 0) →
      (∀ b ∈ bands, ∀ p ∈ b.poss, 0 < p.1) →
      (∀ b ∈ bands, b.poss ≠ []) →
      ∀ b ∈ bands, sideSum (buildTable bands) b.age 1 = .ok (rightMass b) := by
  intro bands
  induction bands with
  | nil =>
      intro _ _ _ _ b hb
      cases hb
  | cons b0 rest ih =>
      intro hdist hneg hpos hne b hb
      have hsplit : buildTable (b0 :: rest) = bandRows b0 ++ buildTable rest := rfl
      rw [hsplit]
      rcases List.mem_cons.mp hb with rfl | hb'
      · rw [sideSum_append_right_nil]
        · exact sideSum_bandRows_pos b (hneg b (List.mem_cons_self ..))
            (hpos b (List.mem_cons_self ..)) (hne b (List.mem_cons_self ..))
        · refine sideRows_of_ne_age fun r hr => ?_
          obtain ⟨c, hc, hrc⟩ := buildTable_age_mem hr
          rw [hrc]
          exact fun hca => (List.pairwise_cons.mp hdist).1 c hc hca.symm
      · rw [sideSum_append_left_nil]
        · exact ih (List.pairwise_cons.mp hdist).2
            (fun c hc => hneg c (List.mem_cons_of_mem _ hc))
            (fun c hc => hpos c (List.mem_cons_of_mem _ hc))
            (fun c hc => hne c (List.mem_cons_of_mem _ hc)) b hb'
        · refine sideRows_of_ne_age fun r hr => ?_
          rw [rowsFrom_age b0.age (bandItems b0) 0 r hr]
          exact (List.pairwise_cons.mp hdist).1 b hb'

theorem rowsFrom_trunkfilter_nil (a : List Char) :
    ∀ (items : List (Int × ℚ)), (∀ p ∈ items, ¬p.1 = 0) →
      ∀ acc, (rowsFrom a acc items).filter (fun r => r.age == a && r.catIdx == 0) = [] := by
  intro items
  induction items with
  | nil =>
      intro _ acc
      rfl
  | cons p t ih =>
      intro h acc
      obtain ⟨ci, f⟩ := p
      show ((⟨a, ci, f, acc + f⟩ : LRow) :: rowsFrom a (acc + f) t).filter _ = []
      rw [List.filter_cons,
        if_neg (show ¬(((⟨a, ci, f, acc + f⟩ : LRow).age == a
            && (⟨a, ci, f, acc + f⟩ : LRow).catIdx == 0) = true) from by
          intro hc
          rw [Bool.and_eq_true, beq_iff_eq, beq_iff_eq] at hc
          exact h (ci, f) (List.mem_cons_self ..) hc.2)]
      exact ih (fun q hq => h q (List.mem_cons_of_mem _ hq)) (acc + f)

/-- The trunk selection in one band's rows is exactly the single trunk row,
with cumulative fraction `acc + leftMass + trunkFrac`. -/
theorem rowsFrom_trunk_filter (a : List Char) (tf : ℚ) :
    ∀ (negs poss : List (Int × ℚ)) (acc : ℚ),
      (∀ p ∈ negs, p.1 < 0) → (∀ p ∈ poss, 0 < p.1) →
      (rowsFrom a acc (negs ++ (0, tf) :: poss)).filter
          (fun r => r.age == a && r.catIdx == 0)
        = [⟨a, 0, tf, acc + (negs.map (fun p => p.2)).sum + tf⟩] := by
  intro negs
  induction negs with
  | nil =>
      intro poss acc _ hpos
      show ((⟨a, 0, tf, acc + tf⟩ : LRow) :: rowsFrom a (acc + tf) poss).filter _ = _
      rw [List.filter_cons, if_pos (by simp),
        rowsFrom_trunkfilter_nil a poss (fun p hp => by have := hpos p hp; omega) (acc + tf)]
      refine congrArg (fun x => [(⟨a, 0, tf, x⟩ : LRow)]) ?_
      simp
  | cons q negs' ih =>
      intro poss acc hneg hpos
      obtain ⟨ci, f⟩ := q
      show ((⟨a, ci, f, acc + f⟩ : LRow)
          :: rowsFrom a (acc + f) (negs' ++ (0, tf) :: poss)).filter _ = _
      rw [List.filter_cons,
        if_neg (show ¬(((⟨a, ci, f, acc + f⟩ : LRow).age == a
            && (⟨a, ci, f, acc + f⟩ : LRow).catIdx == 0) = true) from by
          intro hc
          rw [Bool.and_eq_true, beq_iff_eq, beq_iff_eq] at hc
          have h2 : ci = 0 := hc.2
          have := hneg (ci, f) (List.mem_cons_self ..)
          omega),
        ih poss (acc + f) (fun p hp => hneg p (List.mem_cons_of_mem _ hp)) hpos]
      refine congrArg (fun x => [(⟨a, 0, tf, x⟩ : LRow)]) ?_
      rw [List.map_cons, List.sum_cons]
      ring

theorem trunkfilter_of_ne_age {a : List Char} {g : List LRow}
    (h : ∀ r ∈ g, r.age ≠ a) :
    g.filter (fun r => r.age == a && r.catIdx == 0) = [] := by
  rw [List.filter_eq_nil_iff]
  intro r hr
  rw [Bool.and_eq_true, beq_iff_eq, beq_iff_eq, not_and]
  intro hra
  exact absurd hra (h r hr)

theorem trunkRow_append_nil {g₁ g₂ : List LRow} {a : List Char}
    (h : g₁.filter (fun r => r.age == a && r.catIdx == 0) = []) :
    trunkRow (g₁ ++ g₂) a = trunkRow g₂ a := by
  unfold trunkRow
  rw [List.filter_append, h, List.nil_append]

theorem trunkfilter_map_shiftB (S : ℚ) (a : List Char) :
    ∀ l : List LRow,
      (l.map (shiftB S)).filter (fun r => r.age == a && r.catIdx == 0)
        = (l.filter (fun r => r.age == a && r.catIdx == 0)).map (shiftB S) := by
  intro l
  induction l with
  | nil => rfl
  | cons r t ih =>
      rw [List.map_cons, List.filter_cons, List.filter_cons]
      have hpred : ((shiftB S r).age == a && (shiftB S r).catIdx == 0)
          = (r.age == a && r.catIdx == 0) := rfl
      by_cases hc : (r.age == a && r.catIdx == 0) = true
      · rw [hpred, if_pos hc, if_pos hc, List.map_cons, ih]
      · rw [hpred, if_neg hc, if_neg hc, ih]

theorem prefixLeft_zero (bands : List BandSpec) : prefixLeft bands 0 = 0 := by
  simp [prefixLeft]

theorem prefixLeft_cons_succ (b : BandSpec) (rest : List BandSpec) (j : Nat) :
    prefixLeft (b :: rest) (j + 1) = leftMass b + prefixLeft rest j := by
  unfold prefixLeft
  rw [List.take_succ_cons, List.map_cons, List.sum_cons]

/-- The trunk row of band `i` in the shifted table: its cumulative fraction is
the base shift plus the left-side masses of the earlier bands, plus its own
left mass and trunk fraction — so the trunk *starts* at
`S + prefixLeft + leftMass`, one own-left-mass to the right of the bundle
edge. -/
theorem trunkRow_shiftedTable :
    ∀ (bands : List BandSpec) (S : ℚ),
      List.Pairwise (fun b c => b.age ≠ c.age) bands →
      (∀ b ∈ bands, ∀ p ∈ b.negs, p.1 < 0) →
      (∀ b ∈ bands, ∀ p ∈ b.poss, 0 < p.1) →
      ∀ i (hi : i < bands.length),
        trunkRow (shiftedTable S bands) ((bands.get ⟨i, hi⟩).age)
          = .ok ⟨(bands.get ⟨i, hi⟩).age, 0, (bands.get ⟨i, hi⟩).trunkFrac,
              S + prefixLeft bands i + leftMass (bands.get ⟨i, hi⟩)
                + (bands.get ⟨i, hi⟩).trunkFrac⟩ := by
  intro bands
  induction bands with
  | nil =>
      intro S _ _ _ i hi
      exact absurd hi (by simp)
  | cons b rest ih =>
      intro S hdist hneg hpos i hi
      cases i with
      | zero =>
          show trunkRow ((bandRows b).map (shiftB S)
              ++ shiftedTable (S + leftMass b) rest) b.age = _
          unfold trunkRow
          rw [List.filter_append, trunkfilter_map_shiftB,
            show bandRows b = rowsFrom b.age 0 (bandItems b) from rfl,
            show bandItems b = b.negs ++ (0, b.trunkFrac) :: b.poss from rfl,
            rowsFrom_trunk_filter b.age b.trunkFrac b.negs b.poss 0
              (hneg b (List.mem_cons_self ..)) (hpos b (List.mem_cons_self ..)),
            List.map_cons]
          show Except.ok (shiftB S
                ⟨b.age, 0, b.trunkFrac, 0 + (b.negs.map (fun p => p.2)).sum + b.trunkFrac⟩)
              = Except.ok (⟨b.age, 0, b.trunkFrac,
                  S + prefixLeft (b :: rest) 0 + leftMass b + b.trunkFrac⟩ : LRow)
          unfold shiftB
          refine congrArg Except.ok
            (congrArg (fun x => (⟨b.age, 0, b.trunkFrac, x⟩ : LRow)) ?_)
          rw [prefixLeft_zero]
          unfold leftMass
          ring
      | succ j =>
          have hj : j < rest.length := by simpa using hi
          have hne : ∀ r ∈ (bandRows b).map (shiftB S), r.age ≠ (rest.get ⟨j, hj⟩).age := by
            intro r hr
            rw [List.mem_map] at hr
            obtain ⟨r0, hr0, rfl⟩ := hr
            have hage : r0.age = b.age := rowsFrom_age b.age (bandItems b) 0 r0 hr0
            show r0.age ≠ (rest.get ⟨j, hj⟩).age
            rw [hage]
            exact (List.pairwise_cons.mp hdist).1 _ (rest.get_mem _ _)
          show trunkRow ((bandRows b).map (shiftB S)
              ++ shiftedTable (S + leftMass b) rest) ((rest.get ⟨j, hj⟩).age)
            = .ok ⟨(rest.get ⟨j, hj⟩).age, 0, (rest.get ⟨j, hj⟩).trunkFrac,
                S + prefixLeft (b :: rest) (j + 1) + leftMass (rest.get ⟨j, hj⟩)
                  + (rest.get ⟨j, hj⟩).trunkFrac⟩
          rw [trunkRow_append_nil (trunkfilter_of_ne_age hne),
            ih (S + leftMass b) (List.pairwise_cons.mp hdist).2
              (fun c hc => hneg c (List.mem_cons_of_mem _ hc))
              (fun c hc => hpos c (List.mem_cons_of_mem _ hc)) j hj]
          refine congrArg Except.ok
            (congrArg (fun x => (⟨(rest.get ⟨j, hj⟩).age, 0,
              (rest.get ⟨j, hj⟩).trunkFrac, x⟩ : LRow)) ?_)
          rw [prefixLeft_cons_succ]
          ring

/-- The shift loop adds the accumulated left-side mass of the earlier bands to
each band's cumulative fractions; already-processed rows (`done`) are never
touched again. -/
theorem shiftLoop_build (g0 : List LRow) :
    ∀ (bands : List BandSpec) (S : ℚ) (done : List LRow),
      List.Pairwise (fun b c => b.age ≠ c.age) bands →
      (∀ b ∈ bands, sideSum g0 b.age (-1) = .ok (leftMass b)) →
      (∀ r ∈ done, ∀ b ∈ bands, r.age ≠ b.age) →
      shiftLoop g0 (bands.map (fun b => b.age)) S (done ++ buildTable bands)
        = .ok (done ++ shiftedTable S bands) := by
  intro bands
  induction bands with
  | nil =>
      intro S done _ _ _
      rfl
  | cons b rest ih =>
      intro S done hdist hg0 hdone
      rw [show shiftLoop g0 ((b :: rest).map (fun c => c.age)) S
            (done ++ buildTable (b :: rest))
          = shiftLoop g0 (rest.map (fun c => c.age)) (S + leftMass b)
              ((done ++ buildTable (b :: rest)).map (fun r =>
                if r.age == b.age then { r with cumFrac := r.cumFrac + S } else r))
        from by
          rw [List.map_cons]
          simp only [shiftLoop]
          rw [hg0 b (List.mem_cons_self ..)]]
      have h1 : done.map (fun r =>
          if r.age == b.age then { r with cumFrac := r.cumFrac + S } else r) = done := by
        have := List.map_congr_left (l := done)
          (f := fun r => if r.age == b.age then { r with cumFrac := r.cumFrac + S } else r)
          (g := id) (fun r hr => by
            dsimp only
            rw [if_neg]
            · rfl
            · rw [beq_iff_eq]
              exact hdone r hr b (List.mem_cons_self ..))
        rw [this, List.map_id]
      have h2 : (bandRows b).map (fun r =>
          if r.age == b.age then { r with cumFrac := r.cumFrac + S } else r)
          = (bandRows b).map (shiftB S) :=
        List.map_congr_left (fun r hr => by
          rw [if_pos]
          · rfl
          · rw [beq_iff_eq]
            exact rowsFrom_age b.age (bandItems b) 0 r hr)
      have h3 : (buildTable rest).map (fun r =>
          if r.age == b.age then { r with cumFrac := r.cumFrac + S } else r)
          = buildTable rest := by
        have := List.map_congr_left (l := buildTable rest)
          (f := fun r => if r.age == b.age then { r with cumFrac := r.cumFrac + S } else r)
          (g := id) (fun r hr => by
            dsimp only
            rw [if_neg]
            · rfl
            · rw [beq_iff_eq]
              obtain ⟨c, hc, hrc⟩ := buildTable_age_mem hr
              rw [hrc]
              exact fun hca => (List.pairwise_cons.mp hdist).1 c hc hca.symm)
        rw [this, List.map_id]
      have hmap : (done ++ buildTable (b :: rest)).map (fun r =>
          if r.age == b.age then { r with cumFrac := r.cumFrac + S } else r)
          = (done ++ (bandRows b).map (shiftB S)) ++ buildTable rest := by
        rw [show buildTable (b :: rest) = bandRows b ++ buildTable rest from rfl,
          List.map_append, List.map_append, h1, h2, h3, List.append_assoc]
      rw [hmap,
        ih (S + leftMass b) (done ++ (bandRows b).map (shiftB S))
          (List.pairwise_cons.mp hdist).2
          (fun c hc => hg0 c (List.mem_cons_of_mem _ hc))
          (fun r hr c hc => by
            rcases List.mem_append.mp hr with hr' | hr'
            · exact hdone r hr' c (List.mem_cons_of_mem _ hc)
            · rw [List.mem_map] at hr'
              obtain ⟨r0, hr0, rfl⟩ := hr'
              show r0.age ≠ c.age
              rw [rowsFrom_age b.age (bandItems b) 0 r0 hr0]
              exact (List.pairwise_cons.mp hdist).1 c hc),
        List.append_assoc]
      rfl

/-- The edge loop produces exactly the expected per-band edge records. -/
theorem edgeLoop_build (g0 gs : List LRow) :
    ∀ (bands : List BandSpec) (S : ℚ),
      (∀ b ∈ bands, sideSum g0 b.age (-1) = .ok (leftMass b)) →
      (∀ b ∈ bands, sideSum g0 b.age 1 = .ok (rightMass b)) →
      (∀ i (hi : i < bands.length),
        trunkRow gs ((bands.get ⟨i, hi⟩).age)
          = .ok ⟨(bands.get ⟨i, hi⟩).age, 0, (bands.get ⟨i, hi⟩).trunkFrac,
              S + prefixLeft bands i + leftMass (bands.get ⟨i, hi⟩)
                + (bands.get ⟨i, hi⟩).trunkFrac⟩) →
      edgeLoop g0 gs (bands.map (fun b => b.age)) = .ok (expectedEdges S bands) := by
  intro bands
  induction bands with
  | nil =>
      intro S _ _ _
      rfl
  | cons b rest ih =>
      intro S hl hr htr
      have htr0 : trunkRow gs b.age
          = .ok ⟨b.age, 0, b.trunkFrac,
              S + prefixLeft (b :: rest) 0 + leftMass b + b.trunkFrac⟩ :=
        htr 0 (by simp)
      have htr' : ∀ j (hj : j < rest.length),
          trunkRow gs ((rest.get ⟨j, hj⟩).age)
            = .ok ⟨(rest.get ⟨j, hj⟩).age, 0, (rest.get ⟨j, hj⟩).trunkFrac,
                (S + leftMass b) + prefixLeft rest j + leftMass (rest.get ⟨j, hj⟩)
                  + (rest.get ⟨j, hj⟩).trunkFrac⟩ := by
        intro j hj
        have h1 : trunkRow gs ((rest.get ⟨j, hj⟩).age)
            = .ok ⟨(rest.get ⟨j, hj⟩).age, 0, (rest.get ⟨j, hj⟩).trunkFrac,
                S + prefixLeft (b :: rest) (j + 1) + leftMass (rest.get ⟨j, hj⟩)
                  + (rest.get ⟨j, hj⟩).trunkFrac⟩ := htr (j + 1) (by simpa using hj)
        have harith : S + prefixLeft (b :: rest) (j + 1) + leftMass (rest.get ⟨j, hj⟩)
              + (rest.get ⟨j, hj⟩).trunkFrac
            = (S + leftMass b) + prefixLeft rest j + leftMass (rest.get ⟨j, hj⟩)
              + (rest.get ⟨j, hj⟩).trunkFrac := by
          rw [prefixLeft_cons_succ]
          ring
        rw [harith] at h1
        exact h1
      have hrec := ih (S + leftMass b)
        (fun c hc => hl c (List.mem_cons_of_mem _ hc))
        (fun c hc => hr c (List.mem_cons_of_mem _ hc)) htr'
      have hstep : edgeLoop g0 gs ((b :: rest).map (fun c => c.age))
          = .ok (⟨b.age,
              (S + prefixLeft (b :: rest) 0 + leftMass b + b.trunkFrac)
                - b.trunkFrac - leftMass b,
              (S + prefixLeft (b :: rest) 0 + leftMass b + b.trunkFrac)
                + rightMass b⟩ :: expectedEdges (S + leftMass b) rest) := by
        rw [List.map_cons]
        simp only [edgeLoop]
        rw [htr0, hl b (List.mem_cons_self ..), hr b (List.mem_cons_self ..), hrec]
      rw [hstep]
      have e1 : (S + prefixLeft (b :: rest) 0 + leftMass b + b.trunkFrac)
          - b.trunkFrac - leftMass b = S := by
        rw [prefixLeft_zero]
        ring
      have e2 : (S + prefixLeft (b :: rest) 0 + leftMass b + b.trunkFrac)
          + rightMass b = S + leftMass b + b.trunkFrac + rightMass b := by
        rw [prefixLeft_zero]
        ring
      rw [e1, e2]
      rfl

theorem expectedEdges_length :
    ∀ (bands : List BandSpec) (S : ℚ), (expectedEdges S bands).length = bands.length := by
  intro bands
  induction bands with
  | nil => intro S; rfl
  | cons b rest ih =>
      intro S
      show (_ :: expectedEdges (S + leftMass b) rest).length = _
      rw [List.length_cons, List.length_cons, ih (S + leftMass b)]

theorem expectedEdges_get :
    ∀ (bands : List BandSpec) (S : ℚ) (i : Nat) (hi : i < bands.length)
      (hi' : i < (expectedEdges S bands).length),
      (expectedEdges S bands).get ⟨i, hi'⟩
        = ⟨(bands.get ⟨i, hi⟩).age, S + prefixLeft bands i,
            S + prefixLeft bands i + leftMass (bands.get ⟨i, hi⟩)
              + (bands.get ⟨i, hi⟩).trunkFrac + rightMass (bands.get ⟨i, hi⟩)⟩ := by
  intro bands
  induction bands with
  | nil =>
      intro S i hi
      exact absurd hi (by simp)
  | cons b rest ih =>
      intro S i hi hi'
      cases i with
      | zero =>
          show (⟨b.age, S, S + leftMass b + b.trunkFrac + rightMass b⟩ : AgeEdges)
            = ⟨b.age, S + prefixLeft (b :: rest) 0,
                S + prefixLeft (b :: rest) 0 + leftMass b + b.trunkFrac + rightMass b⟩
          rw [prefixLeft_zero]
          refine congrArg₂ (fun x y => (⟨b.age, x, y⟩ : AgeEdges)) (by ring) (by ring)
      | succ j =>
          have hj : j < rest.length := by simpa using hi
          have hj' : j < (expectedEdges (S + leftMass b) rest).length := by
            rw [expectedEdges_length]
            exact hj
          show (expectedEdges (S + leftMass b) rest).get ⟨j, hj'⟩
            = ⟨(rest.get ⟨j, hj⟩).age, S + prefixLeft (b :: rest) (j + 1),
                S + prefixLeft (b :: rest) (j + 1) + leftMass (rest.get ⟨j, hj⟩)
                  + (rest.get ⟨j, hj⟩).trunkFrac + rightMass (rest.get ⟨j, hj⟩)⟩
          rw [ih (S + leftMass b) j hj hj', prefixLeft_cons_succ]
          refine congrArg₂ (fun x y => (⟨(rest.get ⟨j, hj⟩).age, x, y⟩ : AgeEdges))
            (by ring) (by ring)

/-- C7 amended: on a well-formed year group (each band: nonempty negative
side, trunk, nonempty positive side, running cumulative fractions, distinct
ages), `align_trunk` succeeds, every band's `leftFrac` equals the cumulative
left-side mass of the *previous* bands — i.e. the leftmost edge of the band's
shifted bundle, which is what starts where the previous left-side mass ended —
its `rightFrac` equals `leftFrac` plus the whole band's mass (the rightmost
edge), while the trunk segment itself starts one own-left-mass further right,
at `prefixLeft + leftMass`, not at the previous band's boundary. -/
theorem c7_aligned_edges (bands : List BandSpec)
    (hdist : List.Pairwise (fun b c => b.age ≠ c.age) bands)
    (hneg : ∀ b ∈ bands, ∀ p ∈ b.negs, p.1 < 0)
    (hpos : ∀ b ∈ bands, ∀ p ∈ b.poss, 0 < p.1)
    (hnegne : ∀ b ∈ bands, b.negs ≠ [])
    (hposne : ∀ b ∈ bands, b.poss ≠ []) :
    align_trunk (bands.map (fun b => b.age)) (buildTable bands)
      = .ok (shiftedTable 0 bands, expectedEdges 0 bands) ∧
    (expectedEdges 0 bands).length = bands.length ∧
    ∀ i (hi : i < bands.length) (hi' : i < (expectedEdges 0 bands).length),
      (expectedEdges 0 bands).get ⟨i, hi'⟩
        = ⟨(bands.get ⟨i, hi⟩).age, prefixLeft bands i,
            prefixLeft bands i + leftMass (bands.get ⟨i, hi⟩)
              + (bands.get ⟨i, hi⟩).trunkFrac + rightMass (bands.get ⟨i, hi⟩)⟩ ∧
      trunkRow (shiftedTable 0 bands) ((bands.get ⟨i, hi⟩).age)
        = .ok ⟨(bands.get ⟨i, hi⟩).age, 0, (bands.get ⟨i, hi⟩).trunkFrac,
            prefixLeft bands i + leftMass (bands.get ⟨i, hi⟩)
              + (bands.get ⟨i, hi⟩).trunkFrac⟩ := by
  have hg0neg := sideSum_buildTable_neg bands hdist hneg hpos hnegne
  have hg0pos := sideSum_buildTable_pos bands hdist hneg hpos hposne
  have hshift := shiftLoop_build (buildTable bands) bands 0 [] hdist hg0neg
    (fun r hr => absurd hr (List.not_mem_nil r))
  rw [List.nil_append, List.nil_append] at hshift
  have htr := trunkRow_shiftedTable bands 0 hdist hneg hpos
  have hedge := edgeLoop_build (buildTable bands) (shiftedTable 0 bands) bands 0
    hg0neg hg0pos htr
  refine ⟨?_, ?_, ?_⟩
  · unfold align_trunk
    rw [hshift]
    show (match edgeLoop (buildTable bands) (shiftedTable 0 bands)
        (bands.map (fun b => b.age)) with
      | Except.error e => Except.error e
      | Except.ok es => Except.ok (shiftedTable 0 bands, es)) = _
    rw [hedge]
  · rw [expectedEdges_length]
  · intro i hi hi'
    constructor
    · rw [expectedEdges_get bands 0 i hi hi']
      refine congrArg₂ (fun x y => (⟨(bands.get ⟨i, hi⟩).age, x, y⟩ : AgeEdges))
        (by ring) (by ring)
    · rw [htr i hi]
      refine congrArg Except.ok
        (congrArg (fun x => (⟨(bands.get ⟨i, hi⟩).age, 0,
          (bands.get ⟨i, hi⟩).trunkFrac, x⟩ : LRow)) ?_)
      ring

/-- The two bands of the C7 counterexample group, as band specifications. -/
def c7bands : List BandSpec :=
  [⟨['1'], [(-1, 1 / 5)], 1 / 2, [(1, 3 / 10)]⟩,
   ⟨['2'], [(-1, 1 / 10)], 3 / 10, [(1, 1 / 10)]⟩]

/-- Witness for C7 amended: the two-band group aligns successfully to the
expected shifted rows and edge records. -/
theorem c7_aligned_edges_witness :
    align_trunk (c7bands.map (fun b => b.age)) (buildTable c7bands)
      = .ok (shiftedTable 0 c7bands, expectedEdges 0 c7bands) :=
  (c7_aligned_edges c7bands (by decide) (by decide) (by decide)
    (by decide) (by decide)).1

end MortalityENW
